import Mathlib

/-!
Verification development for the `a-fragile-peace-that-burns-within` world
server.  The sources embedded here are the active section of `src/server.js`
(object-tree persistence `loadData`/`saveData`, the `init` protocol
`handleInit`/`send` and the `connected` event handler), the session managers
`src/clientManager.js` and `src/socketManager.js`, and the `GameServer`
variant in `src/unnamed/part_002` (its maintenance loop, inactive-client
eviction, exit handler and init-by-secret path).

JavaScript `Map` objects are modelled as insertion-ordered association lists,
machine numbers as `Int` (all values appearing in the claims are integers),
and file-system effects as explicit operation traces.
-/

namespace Burns

/-! ## Association-list model of JS `Map` -/

/-- `Map.get`: value of the first (unique) entry with the given key. -/
def jget {κ α : Type} [DecidableEq κ] : List (κ × α) → κ → Option α
  | [], _ => none
  | (k', v) :: rest, k => if k' = k then some v else jget rest k

/-- `Map.set`: overwrite in place if the key is present, else append. -/
def jset {κ α : Type} [DecidableEq κ] : List (κ × α) → κ → α → List (κ × α)
  | [], k, v => [(k, v)]
  | (k', v') :: rest, k, v =>
    if k' = k then (k, v) :: rest else (k', v') :: jset rest k v

/-- `Map.has`. -/
def jhas {κ α : Type} [DecidableEq κ] (m : List (κ × α)) (k : κ) : Bool :=
  (jget m k).isSome

/-- `Map.delete`. -/
def jdelete {κ α : Type} [DecidableEq κ] : List (κ × α) → κ → List (κ × α)
  | [], _ => []
  | (k', v) :: rest, k => if k' = k then rest else (k', v) :: jdelete rest k

/-- `Map.get(k).push(xs...)`: append to the array stored at `k`, in place.
(When the key is absent the JS code would throw on `undefined.push`; the
model leaves the map unchanged — that situation is unreachable in every
theorem below.) -/
def jpushAll {κ α : Type} [DecidableEq κ] : List (κ × List α) → κ → List α → List (κ × List α)
  | [], _, _ => []
  | (k', v) :: rest, k, xs =>
    if k' = k then (k', v ++ xs) :: rest else (k', v) :: jpushAll rest k xs

/-- `Map.get(k).push(x)` for a single element. -/
def jpush {κ α : Type} [DecidableEq κ] (m : List (κ × List α)) (k : κ) (x : α) :
    List (κ × List α) :=
  jpushAll m k [x]

/-! ## JS values and the game object record -/

/-- A JS property value as it occurs in the object store: a number
(integral in all persisted data; modelled as `Int`), a string, or
`undefined`. -/
inductive JsVal : Type where
  | num (n : Int)
  | str (s : String)
  | undef
deriving DecidableEq, Repr

/-- A world object as built by `loadData` in `src/server.js`:
`{ id, type, name, ...properties }`. -/
structure Obj : Type where
  id : String
  type : String
  name : String
  props : List (String × JsVal)
deriving DecidableEq, Repr

/-- A client record `{ id, secret }` as used by the `src/server.js` secret
maps. -/
structure CObj : Type where
  id : String
  secret : String
deriving DecidableEq, Repr

/-- The response object built by `handleInit` (`src/server.js` 452-497):
`type:"init"` plus these fields.  `rejoin` is set only in the
connected-secret branch (absent = `false`); `clientSecret` is present only
for a newly created client. -/
structure InitResp : Type where
  keepAliveTimeout : Nat
  rejoin : Bool
  clientSecret : Option String
  clientId : String
deriving DecidableEq, Repr

/-- A message pushed into a per-client outbound buffer by `send`
(`src/server.js` 499-501).  The buffer holds `JSON.stringify` of these;
the model keeps the structured value. -/
inductive OutMsg : Type where
  | initResp (r : InitResp)
  | chatMsg (channel content : String)
  | dirtyObj (o : Obj)
deriving DecidableEq, Repr

/-- Key of `state.id_buffer`.  Its entries are always created with the
string `client.id`, but `handleInit` queries `has(client)` with the client
object itself — the key type records both possibilities. -/
inductive BKey : Type where
  | strK (s : String)
  | objK (c : CObj)
deriving DecidableEq, Repr

/-- The module-global `state` record of the active section of
`src/server.js` (lines 328-338), plus `ws_secret` which models the
`ws.secret = client.secret` property set on the socket object. -/
structure SState : Type where
  id_object : List (String × Obj)
  id_parentId : List (String × String)
  id_contentIds : List (String × List String)
  id_buffer : List (BKey × List OutMsg)
  id_dirty : List (String × Obj)
  root : Option Obj
  secret_object : List (String × CObj)
  secret_object_connected : List (String × CObj)
  id_ws : List (String × Nat)
  ws_secret : List (Nat × String)
deriving DecidableEq, Repr

/-- The freshly initialised `state` (all maps empty, no root). -/
def initState : SState :=
  ⟨[], [], [], [], [], none, [], [], [], []⟩

/-! ## Characters of the persisted text format -/

/-- `{` (written by code point to keep brace characters out of literals). -/
def braceL : Char := Char.ofNat 123

/-- `}`. -/
def braceR : Char := Char.ofNat 125

/-- The `│` continuation marker of the indent prefix (U+2502). -/
def vbar : Char := Char.ofNat 0x2502

/-- The `├` branch marker ending a non-empty indent prefix (U+251C). -/
def rbranch : Char := Char.ofNat 0x251C

/-- A character matched by the JS regex class `\w`: `[A-Za-z0-9_]`. -/
def wordChar (c : Char) : Bool := c.isAlphanum || c = '_'

/-- A character counted by `line.match(/(│|├)/g)` in `loadData`. -/
def markerChar (c : Char) : Bool := c = vbar || c = rbranch

/-! ## Decimal rendering (`${value}` on a JS number) and `parseFloat` -/

/-- Decimal digit character of `n < 10`. -/
def digitChar (n : Nat) : Char := Char.ofNat (48 + n)

/-- Decimal digit string of a natural number, with structural fuel (the
fuel never runs out when it exceeds the number of digits, in particular
for `fuel = n + 1`). -/
def renderNatAux : Nat → Nat → List Char
  | 0, _ => []
  | fuel + 1, n =>
    if n < 10 then [digitChar n]
    else renderNatAux fuel (n / 10) ++ [digitChar (n % 10)]

/-- Decimal digit string of a natural number, as JS `Number.prototype.toString`
renders a non-negative safe integer. -/
def renderNat (n : Nat) : List Char := renderNatAux (n + 1) n

/-- Decimal rendering of an integer (JS template-literal interpolation of a
safe-integer number value). -/
def renderInt (n : Int) : List Char :=
  if n < 0 then '-' :: renderNat n.natAbs else renderNat n.toNat

/-- Numeric value of a run of decimal digit characters. -/
def digitsVal (ds : List Char) : Nat :=
  ds.foldl (fun a c => 10 * a + (c.toNat - 48)) 0

/-- Is `p` a prefix of `l`? -/
def hasPfx : List Char → List Char → Bool
  | [], _ => true
  | _ :: _, [] => false
  | p :: ps, c :: cs => p = c && hasPfx ps cs

/-- `parseFloat` on the integer fragment: skip leading whitespace, optional
sign, then a non-empty run of digits (`none` = `NaN`).  A fractional or
exponent continuation after the digits would extend the JS parse to a
non-integral value; every theorem below constrains its inputs (via
`numericish` being false on string values) so that this case never arises. -/
def jsParseFloat (v : List Char) : Option Int :=
  let v1 := v.dropWhile Char.isWhitespace
  let sgn : Int := if v1.headD ' ' = '-' then -1 else 1
  let r := if v1.headD ' ' = '-' ∨ v1.headD ' ' = '+' then v1.tail else v1
  let ds := r.takeWhile Char.isDigit
  if ds.isEmpty then none else some (sgn * (digitsVal ds : Nat))

/-- Test used by the well-formedness hypotheses: does `parseFloat` consume
anything from this string (leading whitespace, optional sign, then a digit,
a `.digit`, or an `Infinity` literal)?  String property values for which
this is false are returned unchanged by the loader's
`parseFloat(value) || value`. -/
def numericish (s : List Char) : Bool :=
  let r := s.dropWhile Char.isWhitespace
  let r2 := if r.headD ' ' = '-' ∨ r.headD ' ' = '+' then r.tail else r
  (r2.headD ' ').isDigit ||
    (r2.headD ' ' = '.' && (r2.tail.headD ' ').isDigit) ||
    hasPfx "Infinity".data r2

/-! ## JS string splitting -/

/-- `String.prototype.split` with a one-character separator, on the
character list. -/
def jsSplit1 (a : Char) : List Char → List (List Char)
  | [] => [[]]
  | c :: rest =>
    if c = a then [] :: jsSplit1 a rest
    else
      match jsSplit1 a rest with
      | [] => [[c]]
      | p :: ps => (c :: p) :: ps

/-- `String.prototype.split` with a two-character separator (`", "` and
`": "` in `loadData`). -/
def jsSplit2 (a b : Char) : List Char → List (List Char)
  | [] => [[]]
  | [c] => [[c]]
  | c :: d :: rest =>
    if c = a ∧ d = b then [] :: jsSplit2 a b rest
    else
      match jsSplit2 a b (d :: rest) with
      | [] => [[c]]
      | p :: ps => (c :: p) :: ps

/-- `Array.prototype.join` with a separator (used by `saveData` for `", "`). -/
def joinSep (sep : List Char) : List (List Char) → List Char
  | [] => []
  | [x] => x
  | x :: y :: rest => x ++ sep ++ joinSep sep (y :: rest)

/-- `String.prototype.trim`. -/
def trimChars (l : List Char) : List Char :=
  ((l.dropWhile Char.isWhitespace).reverse.dropWhile Char.isWhitespace).reverse

/-! ## The `loadData` line regex

`line.match(/(\w+)-(\w+) \(([^)]*)\) \{([^}]+)\}/)` — an unanchored search
returning the leftmost match, with groups `type`, `id`, `name`,
`propertiesStr`.  Because `\w+` cannot stop before a word character, `[^)]*`
cannot cross a `)`, and `[^}]+` cannot cross a `}`, the backtracking regex
match at a fixed start position is equivalent to the greedy first-fit
attempt below, and the leftmost-match search is the position scan
`findMatch`. -/

/-- Attempt the object-line pattern at the start of `cs`; on success return
the four capture groups. -/
def matchAt (cs : List Char) : Option (List Char × List Char × List Char × List Char) :=
  let w1 := cs.takeWhile wordChar
  let r1 := cs.dropWhile wordChar
  if w1.isEmpty then none else
  match r1 with
  | '-' :: r2 =>
    let w2 := r2.takeWhile wordChar
    let r3 := r2.dropWhile wordChar
    if w2.isEmpty then none else
    match r3 with
    | ' ' :: '(' :: r4 =>
      let nm := r4.takeWhile (fun c => c ≠ ')')
      let r5 := r4.dropWhile (fun c => c ≠ ')')
      match r5 with
      | ')' :: ' ' :: b :: r6 =>
        if b = braceL then
          let ps := r6.takeWhile (fun c => c ≠ braceR)
          let r7 := r6.dropWhile (fun c => c ≠ braceR)
          if ps.isEmpty then none
          else match r7 with
            | [] => none
            | _ :: _ => some (w1, w2, nm, ps)
        else none
      | _ => none
    | _ => none
  | _ => none

/-- Leftmost match of the object-line pattern anywhere in the line. -/
def findMatch : List Char → Option (List Char × List Char × List Char × List Char)
  | [] => none
  | c :: rest =>
    match matchAt (c :: rest) with
    | some r => some r
    | none => findMatch rest

/-! ## Property parsing (`loadData` lines 385-390) -/

/-- One element of `propertiesStr.split(", ")`, destructured as
`const [key, value] = prop.split(": ")` and then subjected to
`parseFloat(value) || value` (`0` and `NaN` are falsy, so the string is
kept in those cases; a missing second component is `undefined`). -/
def parseProp (piece : List Char) : String × JsVal :=
  let parts := jsSplit2 ':' ' ' piece
  let key : List Char := parts.headD []
  let val : JsVal :=
    match parts.drop 1 with
    | [] => .undef
    | v :: _ =>
      match jsParseFloat v with
      | some n => if n = 0 then .str ⟨v⟩ else .num n
      | none => .str ⟨v⟩
  (⟨key⟩, val)

/-- `Object.fromEntries`: later duplicate keys keep the first position and
the last value — exactly the `Map.set` fold. -/
def jsFromEntries (l : List (String × JsVal)) : List (String × JsVal) :=
  l.foldl (fun acc p => jset acc p.1 p.2) []

/-! ## The per-depth parent stack (`loadData` lines 373, 394-404) -/

/-- `parentStack[i]` — JS array read; holes and out-of-range reads are
`undefined`. -/
def psGet (stk : List (Option Obj)) (i : Nat) : Option Obj :=
  (stk[i]?).getD none

/-- `parentStack[i] = obj` — JS array write, padding with holes when `i`
is beyond the current length. -/
def psSet (stk : List (Option Obj)) (i : Nat) (o : Obj) : List (Option Obj) :=
  if i < stk.length then stk.set i (some o)
  else stk ++ List.replicate (i - stk.length) none ++ [some o]

/-! ## `loadData` (`src/server.js` 369-411) -/

/-- Processing of a single line of `objects.txt` by the `for await` body of
`loadData`: trim, count indent markers, regex-match (a non-matching line is
skipped by `continue`), build the object, link it to the parent found on
the stack (or make it the root at indent 0), then register it in
`id_object`, `id_contentIds` and `id_dirty` and place it on the stack. -/
def loadLine (acc : SState × List (Option Obj)) (line : List Char) :
    SState × List (Option Obj) :=
  let st := acc.1
  let stk := acc.2
  let l := trimChars line
  let indentLevel := (l.filter markerChar).length
  match findMatch l with
  | none => (st, stk)
  | some (ty, idc, nm, ps) =>
    let id : String := ⟨idc⟩
    let props := jsFromEntries ((jsSplit2 ',' ' ' ps).map parseProp)
    let obj : Obj := { id := id, type := ⟨ty⟩, name := ⟨nm⟩, props := props }
    let st1 :=
      if 0 < indentLevel then
        match psGet stk (indentLevel - 1) with
        | some parent =>
          { st with
              id_parentId := jset st.id_parentId id parent.id,
              id_contentIds := jpush st.id_contentIds parent.id id }
        | none => st
      else { st with root := some obj }
    let stk1 := psSet stk indentLevel obj
    let st2 :=
      { st1 with
          id_object := jset st1.id_object id obj,
          id_contentIds := jset st1.id_contentIds id [],
          id_dirty := jset st1.id_dirty id obj }
    (st2, stk1)

/-- `loadData`: fold the line-processing body over the lines of
`objects.txt` (the file is modelled as its `readline` line sequence),
starting from the current state and an empty parent stack. -/
def loadData (lines : List (List Char)) (st : SState) : SState :=
  (lines.foldl loadLine (st, [])).1

/-! ## `saveData` (`src/server.js` 413-445) -/

/-- The indent prefix written by `writeObject`: `"│ ".repeat(indentLevel)`
with the final repetition replaced by `"├ "` when non-empty. -/
def indentChars (k : Nat) : List Char :=
  if k = 0 then []
  else (List.replicate (k - 1) [vbar, ' ']).flatten ++ [rbranch, ' ']

/-- `${value}` interpolation of a property value. -/
def renderVal : JsVal → List Char
  | .num n => renderInt n
  | .str s => s.data
  | .undef => "undefined".data

/-- One `key: value` item of the properties list. -/
def renderProp (p : String × JsVal) : List Char :=
  p.1.data ++ ':' :: ' ' :: renderVal p.2

/-- `Object.entries(obj).filter(([key]) => !["id","type","name"].includes(key))
.map(([key, value]) => `${key}: ${value}`).join(", ")`. -/
def renderProps (props : List (String × JsVal)) : List Char :=
  joinSep [',', ' ']
    ((props.filter fun p => p.1 ≠ "id" && p.1 ≠ "type" && p.1 ≠ "name").map renderProp)

/-- The line written for one object:
`${indent}${obj.type}-${obj.id} (${obj.name}) {${properties}}`. -/
def renderLine (o : Obj) (k : Nat) : List Char :=
  indentChars k ++ o.type.data ++ '-' :: o.id.data ++
    ' ' :: '(' :: o.name.data ++ ')' :: ' ' :: braceL :: renderProps o.props ++ [braceR]

/-- The recursive `writeObject(id, indentLevel)` of `saveData`: look the
object up (silently return when absent), emit its line, then recurse into
`state.id_contentIds.get(id) || []` at depth `+1`.  The JS recursion has no
explicit bound; the model carries fuel, and `saveData` supplies more fuel
than any acyclic child index can consume. -/
def writeObject (st : SState) : Nat → String → Nat → List (List Char)
  | 0, _, _ => []
  | fuel + 1, id, k =>
    match jget st.id_object id with
    | none => []
    | some obj =>
      renderLine obj k ::
        ((jget st.id_contentIds id).getD []).flatMap
          (fun childId => writeObject st fuel childId (k + 1))

/-- The lines written by `saveData`: nothing when no root is set, else the
pre-order depth-first walk from `state.root.id`. -/
def saveLines (st : SState) : List (List Char) :=
  match st.root with
  | none => []
  | some r => writeObject st (st.id_object.length + 1) r.id 0

/-! ## File-system traces (for the atomicity claim) -/

/-- An abstract file-system operation performed by the persistence code. -/
inductive FsOp : Type where
  | createWriteStream (path : String)
  | write (path : String) (line : List Char)
  | streamEnd (path : String)
  | mkdirRec (path : String)
  | writeFile (path : String) (props : List (String × JsVal))
  | rmRec (path : String)
  | rename (src dst : String)
deriving DecidableEq, Repr

/-- `path.join(config.dataDir, "objects.txt")` with `dataDir = "./data"`. -/
def objectsTxt : String := "data/objects.txt"

/-- Is the operation a rename? -/
def FsOp.isRename : FsOp → Bool
  | .rename _ _ => true
  | _ => false

/-- The path an operation touches (the destination for a rename). -/
def FsOp.target : FsOp → String
  | .createWriteStream p => p
  | .write p _ => p
  | .streamEnd p => p
  | .mkdirRec p => p
  | .writeFile p _ => p
  | .rmRec p => p
  | .rename _ d => d

/-- The file-system trace of one `saveData` call: open a write stream
directly on `data/objects.txt` (truncating it), write each object line
followed by a newline, close the stream. -/
def saveTrace (st : SState) : List FsOp :=
  FsOp.createWriteStream objectsTxt ::
    (saveLines st).map (fun l => FsOp.write objectsTxt (l ++ ['\n'])) ++
    [FsOp.streamEnd objectsTxt]

/-- An object of the `GameServer` variant (`src/unnamed/part_002`), which
keeps `parent` and `contents` on the object itself. -/
structure GObj : Type where
  id : String
  type : String
  parent : Option String
  contents : List String
  props : List (String × JsVal)
deriving DecidableEq, Repr

/-- The file-system trace of `persistObject(object, dirPath)` (`part_002`
253-264): make the `type-id` directory, write `properties.json`, recurse
into the contents.  (A content id missing from the map would make the JS
recursion throw; the model emits nothing for it — unreachable under the
hypotheses used.) -/
def persistObjectTrace (objects : List (String × GObj)) :
    Nat → GObj → String → List FsOp
  | 0, _, _ => []
  | fuel + 1, o, dirPath =>
    let dir := dirPath ++ "/" ++ o.type ++ "-" ++ o.id
    FsOp.mkdirRec dir :: FsOp.writeFile (dir ++ "/properties.json") o.props ::
      o.contents.flatMap fun cid =>
        match jget objects cid with
        | some c => persistObjectTrace objects fuel c dir
        | none => []

/-- The file-system trace of the cleanup branch of `exitHandler`
(`part_002` 281-292): persist the tree under `data/tmp`, then *remove* the
previous `data/objects` directory, then rename `data/tmp` over it. -/
def exitHandlerTrace (objects : List (String × GObj)) (rootObject : GObj) :
    List FsOp :=
  persistObjectTrace objects (objects.length + 1) rootObject "data/tmp" ++
    [FsOp.rmRec "data/objects", FsOp.rename "data/tmp" "data/objects"]

/-! ## Object trees

An object tree as held in the store: a root object with nested children.
`storeOfTree` is the canonical `state` holding such a tree through
`id_object` / `id_parentId` / `id_contentIds` (exactly the shape `loadData`
builds). -/

mutual
inductive OTree : Type where
  | node (o : Obj) (children : OForest)
deriving DecidableEq, Repr

inductive OForest : Type where
  | nil
  | cons (t : OTree) (ts : OForest)
deriving DecidableEq, Repr
end

/-- The object at the root of a tree. -/
def OTree.obj : OTree → Obj
  | .node o _ => o

/-- The id at the root of a tree. -/
def OTree.rootId (t : OTree) : String := t.obj.id

/-- The root ids of a forest, in order. -/
def forestRootIds : OForest → List String
  | .nil => []
  | .cons t ts => t.rootId :: forestRootIds ts

mutual
/-- All objects of a tree, in pre-order. -/
def treeObjs : OTree → List Obj
  | .node o cs => o :: forestObjs cs

/-- All objects of a forest, in pre-order. -/
def forestObjs : OForest → List Obj
  | .nil => []
  | .cons t ts => treeObjs t ++ forestObjs ts
end

/-- The ids of a tree, in pre-order. -/
def treeIds (t : OTree) : List String := (treeObjs t).map Obj.id

/-- The ids of a forest, in pre-order. -/
def forestIds (ts : OForest) : List String := (forestObjs ts).map Obj.id

mutual
/-- Height of a tree (bounds the recursion depth of `writeObject`). -/
def treeDepth : OTree → Nat
  | .node _ cs => forestDepth cs + 1

/-- Height of a forest. -/
def forestDepth : OForest → Nat
  | .nil => 0
  | .cons t ts => max (treeDepth t) (forestDepth ts)
end

mutual
/-- The `objects.txt` lines of a tree at a given depth: pre-order,
depth-first, one line per object. -/
def renderTree : OTree → Nat → List (List Char)
  | .node o cs, k => renderLine o k :: renderForest cs (k + 1)

/-- The `objects.txt` lines of a forest at a given depth. -/
def renderForest : OForest → Nat → List (List Char)
  | .nil, _ => []
  | .cons t ts, k => renderTree t k ++ renderForest ts k
end

/-- The `id_object` (and `id_dirty`) entries of a tree, in pre-order. -/
def objEntries (t : OTree) : List (String × Obj) :=
  (treeObjs t).map (fun o => (o.id, o))

/-- The `id_object` entries of a forest. -/
def forestObjEntries (ts : OForest) : List (String × Obj) :=
  (forestObjs ts).map (fun o => (o.id, o))

mutual
/-- The `id_parentId` entries of a tree (none for its root), in the order
`loadData` inserts them. -/
def parentEntriesT : OTree → List (String × String)
  | .node o cs => parentEntriesF o.id cs

/-- The `id_parentId` entries of a forest whose members' parent is `pid`. -/
def parentEntriesF (pid : String) : OForest → List (String × String)
  | .nil => []
  | .cons t ts => (t.rootId, pid) :: parentEntriesT t ++ parentEntriesF pid ts
end

mutual
/-- The `id_contentIds` entries of a tree, in insertion order. -/
def contentEntriesT : OTree → List (String × List String)
  | .node o cs => (o.id, forestRootIds cs) :: contentEntriesF cs

/-- The `id_contentIds` entries of a forest. -/
def contentEntriesF : OForest → List (String × List String)
  | .nil => []
  | .cons t ts => contentEntriesT t ++ contentEntriesF ts
end

/-- The store state holding exactly the given object tree (the session maps
empty).  `id_dirty` mirrors `id_object`, as after `loadData`. -/
def storeOfTree (t : OTree) : SState :=
  { id_object := objEntries t,
    id_parentId := parentEntriesT t,
    id_contentIds := contentEntriesT t,
    id_buffer := [],
    id_dirty := objEntries t,
    root := some t.obj,
    secret_object := [],
    secret_object_connected := [],
    id_ws := [],
    ws_secret := [] }

/-- Extra unreachable objects added to the id→object map (they appear in no
child list and are not the root). -/
def addObjects (st : SState) (js : List (String × Obj)) : SState :=
  { st with id_object := st.id_object ++ js }

/-! ## Well-formedness of a persistable tree

These conditions are what the *amended* round-trip claim assumes: they
exclude exactly the inputs on which the `saveData` text format and the
`loadData` regex/`parseFloat` pipeline lose information. -/

/-- Allowed characters of a property key: must survive the `", "`/`": "`
splitting and the `{...}`/marker scanning. -/
def goodKeyChar (c : Char) : Bool :=
  ¬(c = ':' ∨ c = ',' ∨ c = braceR ∨ markerChar c ∨ c = '\n')

/-- Allowed characters of a string property value. -/
def goodValChar (c : Char) : Bool :=
  ¬(c = ':' ∨ c = ',' ∨ c = braceR ∨ markerChar c ∨ c = '\n')

/-- A property value that survives `${value}` followed by
`parseFloat(value) || value`: a non-zero safe integer, or a string that
does not look numeric to `parseFloat` and contains no delimiter
characters.  (`.num 0` reloads as the string `"0"`, `undefined` reloads as
the string `"undefined"` — both excluded.) -/
def goodVal : JsVal → Prop
  | .num n => n ≠ 0 ∧ n.natAbs < 2 ^ 53
  | .str s => s.data.all goodValChar = true ∧ numericish s.data = false
  | .undef => False

instance : DecidablePred goodVal := fun v => by
  cases v <;> simp only [goodVal] <;> infer_instance

/-- A property entry the text format can round-trip. -/
def goodProp (p : String × JsVal) : Prop :=
  p.1.data.all goodKeyChar = true ∧ p.1 ≠ "id" ∧ p.1 ≠ "type" ∧ p.1 ≠ "name" ∧
    goodVal p.2

instance : DecidablePred goodProp := fun p => by
  unfold goodProp; infer_instance

/-- A non-empty `\w+` string (as `type` and `id` must be to match the
regex they were written from). -/
def wordStr (s : String) : Prop :=
  s.data ≠ [] ∧ s.data.all wordChar = true

instance : DecidablePred wordStr := fun s => by
  unfold wordStr; infer_instance

/-- A display name the format can round-trip: no `)`, no indent markers,
no newline. -/
def goodName (s : String) : Prop :=
  s.data.all (fun c => ¬(c = ')' ∨ markerChar c ∨ c = '\n')) = true

instance : DecidablePred goodName := fun s => by
  unfold goodName; infer_instance

/-- An object the persisted format can round-trip.  `props ≠ []` is the
load-bearing condition: an object with no extra properties is written as
`{}`, which the loader regex (`\{([^}]+)\}`) refuses. -/
def GoodObj (o : Obj) : Prop :=
  wordStr o.id ∧ wordStr o.type ∧ goodName o.name ∧
    o.props ≠ [] ∧ (∀ p ∈ o.props, goodProp p) ∧ (o.props.map Prod.fst).Nodup

instance : DecidablePred GoodObj := fun o => by
  unfold GoodObj; infer_instance

/-- A persistable tree: every object good, all ids distinct. -/
def TreeWF (t : OTree) : Prop :=
  (∀ o ∈ treeObjs t, GoodObj o) ∧ (treeIds t).Nodup

instance : DecidablePred TreeWF := fun t => by
  unfold TreeWF; infer_instance

/-- A persistable forest (used by the induction). -/
def ForestWF (ts : OForest) : Prop :=
  (∀ o ∈ forestObjs ts, GoodObj o) ∧ (forestIds ts).Nodup

mutual
/-- The store's maps agree with a tree: every node's object is found under
its id and its child list is exactly the node's children's root ids. -/
def TreeInStore (st : SState) : OTree → Prop
  | .node o cs => jget st.id_object o.id = some o ∧
      jget st.id_contentIds o.id = some (forestRootIds cs) ∧ ForestInStore st cs

/-- `TreeInStore` for every member of a forest. -/
def ForestInStore (st : SState) : OForest → Prop
  | .nil => True
  | .cons t ts => TreeInStore st t ∧ ForestInStore st ts
end

/-! ## The init protocol of `src/server.js` (lines 447-512) -/

/-- `send(client, message)` (lines 499-501): push onto
`state.id_buffer.get(client.id)`. -/
def sendMsg (st : SState) (c : CObj) (m : OutMsg) : SState :=
  { st with id_buffer := jpush st.id_buffer (BKey.strK c.id) m }

/-- The `events.on("connected")` listener (lines 503-512): unless this is a
rejoin, send the welcome chat message; then — unconditionally — replay
every entry of `state.id_dirty` to the client. -/
def connectedHandler (st : SState) (c : CObj) (isNew isRejoin : Bool) : SState :=
  let st1 :=
    if isRejoin then st
    else
      sendMsg st c
        (.chatMsg "global"
          ("Welcome" ++ (if isNew then "" else " back") ++ " " ++ c.id ++ "!"))
  st1.id_dirty.foldl (fun s p => sendMsg s c (.dirtyObj p.2)) st1

/-- The client-resolution prefix of `handleInit` (lines 460-467): a secret
found in `secret_object_connected` marks a rejoin (`true`); else
`secret_object` is consulted (`false`); else no client resolves. -/
def svResolve (st : SState) (clientSecret : Option String) : Option (CObj × Bool) :=
  match clientSecret with
  | some s =>
    match jget st.secret_object_connected s with
    | some c => some (c, true)
    | none =>
      match jget st.secret_object s with
      | some c => some (c, false)
      | none => none
  | none => none

/-- `handleInit(ws, message)` (lines 452-497).  When no client resolves,
the code runs `await this.generateId()` — but `this` is `undefined` at
module scope, so the call throws a `TypeError`; the model returns
`.error ()` for that path.  On the resolved path: the buffer-existence
test is `state.id_buffer.has(client)` with the client *object* as key
while entries are keyed by the id *string*, so
`state.id_buffer.set(client.id, [])` runs whenever all existing keys are
strings; then the secret/ws maps are updated, the init response is sent,
and the `connected` event handler runs synchronously. -/
def handleInit (st : SState) (ws : Nat) (clientSecret : Option String) :
    Except Unit (SState × CObj × InitResp) :=
  match svResolve st clientSecret with
  | none => .error ()
  | some (c, rej) =>
    let resp : InitResp :=
      { keepAliveTimeout := 30000, rejoin := rej, clientSecret := none,
        clientId := c.id }
    let st1 :=
      if jhas st.id_buffer (BKey.objK c) then st
      else { st with id_buffer := jset st.id_buffer (BKey.strK c.id) [] }
    let st2 :=
      { st1 with
          secret_object := jset st1.secret_object c.secret c,
          secret_object_connected := jset st1.secret_object_connected c.secret c,
          id_ws := jset st1.id_ws c.id ws,
          ws_secret := jset st1.ws_secret ws c.secret }
    let st3 := sendMsg st2 c (.initResp resp)
    let st4 := connectedHandler st3 c resp.clientSecret.isSome resp.rejoin
    .ok (st4, c, resp)

/-- Is this buffer key a string key? -/
def BKey.isStr : BKey → Bool
  | .strK _ => true
  | .objK _ => false

/-- Every key of `id_buffer` is a string key (true in every reachable
state: entries are only ever created with `client.id`). -/
def BufKeysWF (st : SState) : Prop :=
  ∀ p ∈ st.id_buffer, p.1.isStr = true

instance : DecidablePred BufKeysWF := fun st => by
  unfold BufKeysWF; infer_instance

/-! ## The `handleMessage` frame loop of `src/server.js` (lines 355-367) -/

/-- The decoded shape of an inbound message relevant to routing:
`message.type` and `message.clientSecret` (absent fields are `undefined`). -/
structure SvDec : Type where
  type : Option String
  clientSecret : Option String
deriving DecidableEq, Repr

/-- Observable per-message effects of the `server.js` frame loop that are
not state changes. -/
inductive SvEv : Type where
  | touched (clientId : String)
  | emitted (type : String)
deriving DecidableEq, Repr

/-- Processing of one `\n`-separated sub-message by the `forEach` body of
`handleMessage`.  `JSON.parse` is modelled by the abstract `decode`
parameter.  A parse failure throws inside the `async` callback: the
resulting rejected promise is only logged — no error reply is sent, no
state changes, and the remaining sub-messages of the frame still run.  A
successful parse resolves the client (`handleInit` for `init`, else the
socket's `ws.secret`), stamps `lastSeen` (observable as `.touched`) and
emits the message type (`events` has listeners only for `"connected"`,
whose handler would throw before mutating state on an inbound message
lacking a `client` field). -/
def svProcessPiece (decode : String → Option SvDec) (ws : Nat)
    (acc : SState × List SvEv) (piece : String) : SState × List SvEv :=
  let st := acc.1
  let evs := acc.2
  match decode piece with
  | none => (st, evs)
  | some dec =>
    if dec.type = some "init" then
      match handleInit st ws dec.clientSecret with
      | .ok (st', c, _) => (st', evs ++ [.touched c.id, .emitted "init"])
      | .error _ => (st, evs)
    else
      match jget st.ws_secret ws with
      | none => (st, evs)
      | some sec =>
        match jget st.secret_object sec with
        | none => (st, evs)
        | some c =>
          (st, evs ++ [.touched c.id] ++
            (match dec.type with
             | some t => [.emitted t]
             | none => []))

/-- The whole frame body: `msg.split("\n").forEach(...)`. -/
def svProcessPieces (decode : String → Option SvDec) (ws : Nat)
    (st : SState) (pieces : List String) : SState × List SvEv :=
  pieces.foldl (svProcessPiece decode ws) (st, [])

/-- `handleMessage(ws, msg)`: split the frame on newlines and process each
sub-message independently. -/
def svHandleFrame (decode : String → Option SvDec) (ws : Nat)
    (st : SState) (frame : String) : SState × List SvEv :=
  svProcessPieces decode ws st ((jsSplit1 '\n' frame.data).map String.mk)

/-! ## `src/clientManager.js`: inactivity check and removal

The composed application (the main section at the bottom of the
`socketManager.js` source file) passes an `onDisconnect` callback that
broadcasts `{type:"disconnected", clientId, properties}` via
`clientManager.broadcast`, which sends to every client whose socket is
open.  Socket open-ness (`ws.readyState === WebSocket.OPEN`) is the
environment parameter `openWs`. -/

/-- A `clientManager.js` client record `{ ws, lastSeen, properties,
clientId }` (properties are irrelevant to these claims). -/
structure CMClient : Type where
  clientId : String
  ws : Nat
  lastSeen : Int
deriving DecidableEq, Repr

/-- The two maps of `createClientManager`. -/
structure CMState : Type where
  clients : List (String × CMClient)
  wsToClientId : List (Nat × String)
deriving DecidableEq, Repr

/-- Observable transport effects of the maintenance path. -/
inductive CMEv : Type where
  | disconnected (clientId : String) (recipients : List String)
  | closeWs (ws : Nat)
deriving DecidableEq, Repr

/-- The recipients of a `broadcast` call: every client currently in the
map whose socket is open. -/
def cmRecipients (openWs : Nat → Bool) (st : CMState) : List String :=
  (st.clients.filter fun p => openWs p.2.ws).map Prod.fst

/-- `removeClient(clientId, ws)` (`clientManager.js` 224-231): call
`onDisconnect(clients.get(clientId))` — here the composed app's
disconnected-broadcast — then close the socket and delete the client from
both maps. -/
def removeClient (openWs : Nat → Bool) (st : CMState) (clientId : String)
    (ws : Nat) : CMState × List CMEv :=
  let evs :=
    match jget st.clients clientId with
    | some c => [CMEv.disconnected c.clientId (cmRecipients openWs st)]
    | none => []
  (⟨jdelete st.clients clientId, jdelete st.wsToClientId ws⟩,
    evs ++ [CMEv.closeWs ws])

/-- The `clients.forEach` body of `checkInactiveClients`
(`clientManager.js` 207-217), folded over the entry snapshot (the only
mutation is deletion of the entry being visited, which JS `Map` iteration
tolerates). -/
def cmCheckAux (openWs : Nat → Bool) (now timeout : Int) :
    List (String × CMClient) → CMState → List CMEv → CMState × List CMEv
  | [], st, evs => (st, evs)
  | (cid, c) :: rest, st, evs =>
    if timeout < now - c.lastSeen then
      let r := removeClient openWs st cid c.ws
      cmCheckAux openWs now timeout rest r.1 (evs ++ r.2)
    else cmCheckAux openWs now timeout rest st evs

/-- `checkInactiveClients()`: evict every client not seen for longer than
`keepAliveTimeout`. -/
def checkInactiveClients (openWs : Nat → Bool) (now timeout : Int)
    (st : CMState) : CMState × List CMEv :=
  cmCheckAux openWs now timeout st.clients st []

/-! ## The `GameServer` variant (`src/unnamed/part_002`) -/

/-- A `GameServer` client `{ id, secret }` plus its `lastSeen` stamp. -/
structure GSClient : Type where
  id : String
  secret : String
  lastSeen : Int
deriving DecidableEq, Repr

/-- The core maps of the `GameServer` constructor.  `wsByClient` and
`bufferByClient` are keyed by the client object itself. -/
structure GSState : Type where
  clients : List (String × GSClient)
  clientBySecret : List (String × GSClient)
  wsByClient : List (GSClient × Nat)
  bufferByClient : List (GSClient × List String)
deriving DecidableEq, Repr

/-- Observable transport effects of the `GameServer` maintenance tick. -/
inductive GSEv : Type where
  | closeWs (ws : Nat)
  | sendWs (ws : Nat) (payload : String)
deriving DecidableEq, Repr

/-- `handleInactiveClient(client)` (`part_002` 165-173): close the socket
and delete the client from all four maps.  No `disconnected` notice is
emitted anywhere on this path. -/
def handleInactiveClient (st : GSState) (c : GSClient) : GSState × List GSEv :=
  let evs :=
    match jget st.wsByClient c with
    | some w => [GSEv.closeWs w]
    | none => []
  (⟨jdelete st.clients c.id, jdelete st.clientBySecret c.secret,
      jdelete st.wsByClient c, jdelete st.bufferByClient c⟩, evs)

/-- The `setInterval` body of the `GameServer` constructor (`part_002`
40-55), folded over the client entries: on the *first* client whose
inactivity exceeds the timeout it executes
`return this.handleInactiveClient(client)`, which exits the whole loop —
later clients are neither evicted nor flushed this tick.  Otherwise, a
client with an open socket and a non-empty buffer has its buffer cleared
and sent as one newline-joined frame; a client whose socket is not open is
left untouched (buffer retained). -/
def gsTickAux (openWs : Nat → Bool) (now timeout : Int) :
    List (String × GSClient) → GSState → List GSEv → GSState × List GSEv
  | [], st, evs => (st, evs)
  | (_, c) :: rest, st, evs =>
    if timeout < now - c.lastSeen then
      let r := handleInactiveClient st c
      (r.1, evs ++ r.2)
    else
      match jget st.wsByClient c with
      | none => gsTickAux openWs now timeout rest st evs
      | some w =>
        let buf := (jget st.bufferByClient c).getD []
        if openWs w ∧ buf ≠ [] then
          gsTickAux openWs now timeout rest
            { st with bufferByClient := jset st.bufferByClient c [] }
            (evs ++ [GSEv.sendWs w (String.intercalate "\n" buf)])
        else gsTickAux openWs now timeout rest st evs

/-- One maintenance tick of the `GameServer`. -/
def gsMaintenance (openWs : Nat → Bool) (now timeout : Int) (st : GSState) :
    GSState × List GSEv :=
  gsTickAux openWs now timeout st.clients st []

/-- The persisted client file written by `persistClient` (`part_002`
179-185): name `${id}-${secret}.json`, content the stringified client. -/
def gsFileName (c : GSClient) : String := c.id ++ "-" ++ c.secret ++ ".json"

/-- `file.endsWith("-" + secret + ".json")`. -/
def strEndsWith (s suffix : String) : Bool :=
  suffix.data.isSuffixOf s.data

/-- The client-resolution part of the `GameServer`'s `handleInit`
(`part_002` 96-135): an in-memory client under the secret is a rejoin;
otherwise the client directory is searched for a file ending in
`-${secret}.json` and the stored record is revived; otherwise a fresh
client would be created (id generation and persistence are outside this
claim — the resolution result records that branch as `.none`). -/
def gsResolveBySecret (st : GSState) (disk : List (String × GSClient))
    (clientSecret : Option String) : Option (GSClient × Bool) :=
  match clientSecret with
  | none => none
  | some s =>
    match jget st.clientBySecret s with
    | some c => some (c, true)
    | none =>
      match disk.find? (fun f => strEndsWith f.1 ("-" ++ s ++ ".json")) with
      | some f => some (f.2, false)
      | none => none

/-! ## `src/socketManager.js`: batching, flushing and the frame loop -/

/-- A message buffered for (or sent to) a socket-manager client; the code
buffers `JSON.stringify` of these shapes. -/
inductive SMOut : Type where
  | errorInvalid
  | errorUnsupported (type : String)
  | initReply (clientId : String)
  | ackMessage
  | broadcastMsg (content : Option String)
deriving DecidableEq, Repr

/-- A `socketManager.js` client record `{ ws, lastSeen, batchedMessages }`. -/
structure SMClient : Type where
  ws : Nat
  lastSeen : Int
  batched : List SMOut
deriving DecidableEq, Repr

/-- The maps of `createSocketManager`, plus a counter modelling the
successive draws of `generateRandomId`. -/
structure SMState : Type where
  clients : List (String × SMClient)
  wsToClientId : List (Nat × String)
  gen : Nat
deriving DecidableEq, Repr

/-- A transport send performed by `flushBatchedMessages`: the batch that
was joined with the `";"` delimiter and written to the socket. -/
inductive SMEv : Type where
  | sendWs (ws : Nat) (batch : List SMOut)
deriving DecidableEq, Repr

/-- The `clients.forEach` body of `flushBatchedMessages`
(`socketManager.js` 80-91): for a non-empty batch, send it only if the
socket is open — but clear `batchedMessages` in either case. -/
def flushAux (openWs : Nat → Bool) :
    List (String × SMClient) → SMState → List SMEv → SMState × List SMEv
  | [], st, evs => (st, evs)
  | (cid, c) :: rest, st, evs =>
    if c.batched ≠ [] then
      let evs' := if openWs c.ws then evs ++ [SMEv.sendWs c.ws c.batched] else evs
      flushAux openWs rest
        { st with clients := jset st.clients cid { c with batched := [] } } evs'
    else flushAux openWs rest st evs

/-- `flushBatchedMessages()`. -/
def flushBatchedMessages (openWs : Nat → Bool) (st : SMState) :
    SMState × List SMEv :=
  flushAux openWs st.clients st []

/-- `send(ws, message)` (`socketManager.js` 51-62): buffer onto the client
resolved through `wsToClientId`; silently a no-op when the socket has no
registered client. -/
def smSend (st : SMState) (ws : Nat) (m : SMOut) : SMState :=
  match jget st.wsToClientId ws with
  | none => st
  | some cid =>
    match jget st.clients cid with
    | none => st
    | some c =>
      { st with clients := jset st.clients cid { c with batched := c.batched ++ [m] } }

/-- The decoded shape of an inbound socket-manager message. -/
structure SMDec : Type where
  type : Option String
  clientId : Option String
  content : Option String
deriving DecidableEq, Repr

/-- `handleInit(ws, message)` (`socketManager.js` 98-123): a known,
truthy `clientId` re-binds the socket with a fresh empty batch; otherwise
a fresh id is drawn (modelled by `supply st.gen`) and registered; either
way the id is sent back. -/
def smHandleInit (supply : Nat → String) (now : Int) (st : SMState)
    (ws : Nat) (dec : SMDec) : SMState :=
  match dec.clientId with
  | some cid =>
    if cid ≠ "" ∧ (jget st.clients cid).isSome then
      let st1 :=
        { st with
            clients := jset st.clients cid ⟨ws, now, []⟩,
            wsToClientId := jset st.wsToClientId ws cid }
      smSend st1 ws (.initReply cid)
    else
      let fresh := supply st.gen
      let st1 :=
        { st with
            clients := jset st.clients fresh ⟨ws, now, []⟩,
            wsToClientId := jset st.wsToClientId ws fresh,
            gen := st.gen + 1 }
      smSend st1 ws (.initReply fresh)
  | none =>
    let fresh := supply st.gen
    let st1 :=
      { st with
          clients := jset st.clients fresh ⟨ws, now, []⟩,
          wsToClientId := jset st.wsToClientId ws fresh,
          gen := st.gen + 1 }
    smSend st1 ws (.initReply fresh)

/-- `broadcast(message)` (`socketManager.js` 68-75): `send` to every
client whose socket is open. -/
def smBroadcast (openWs : Nat → Bool) (st : SMState) (m : SMOut) : SMState :=
  st.clients.foldl
    (fun s p => if openWs p.2.ws then smSend s p.2.ws m else s) st

/-- `lastSeen = Date.now()` for the client bound to this socket. -/
def smTouch (st : SMState) (ws : Nat) (now : Int) : SMState :=
  match jget st.wsToClientId ws with
  | none => st
  | some cid =>
    match jget st.clients cid with
    | none => st
    | some c => { st with clients := jset st.clients cid { c with lastSeen := now } }

/-- Dispatch to `allHandlers[type]` (defaults only): `init`, `message`,
`broadcast`, else the unsupported-type error reply. -/
def smDispatch (openWs : Nat → Bool) (supply : Nat → String) (now : Int)
    (st : SMState) (ws : Nat) (t : String) (dec : SMDec) : SMState :=
  if t = "init" then smHandleInit supply now st ws dec
  else if t = "message" then smSend st ws .ackMessage
  else if t = "broadcast" then smBroadcast openWs st (.broadcastMsg dec.content)
  else smSend st ws (.errorUnsupported t)

/-- The `messages.forEach` body of the socket-manager connection handler
(`socketManager.js` 177-213): parse the sub-message (failure, or a falsy
`type`, sends the invalid-format error reply and `return`s, continuing
with the next sub-message), stamp `lastSeen`, then dispatch. -/
def smProcessPiece (openWs : Nat → Bool) (supply : Nat → String) (now : Int)
    (decode : String → Option SMDec) (ws : Nat) (st : SMState)
    (piece : String) : SMState :=
  match decode piece with
  | none => smSend st ws .errorInvalid
  | some dec =>
    match dec.type with
    | none => smSend st ws .errorInvalid
    | some t =>
      if t = "" then smSend st ws .errorInvalid
      else smDispatch openWs supply now (smTouch st ws now) ws t dec

/-- The whole message handler body over the already-split pieces. -/
def smProcessPieces (openWs : Nat → Bool) (supply : Nat → String) (now : Int)
    (decode : String → Option SMDec) (ws : Nat) (st : SMState)
    (pieces : List String) : SMState :=
  pieces.foldl (smProcessPiece openWs supply now decode ws) st

/-- The `ws.on("message")` handler: split the frame on the `";"`
delimiter and process each sub-message independently. -/
def smHandleFrame (openWs : Nat → Bool) (supply : Nat → String) (now : Int)
    (decode : String → Option SMDec) (ws : Nat) (st : SMState)
    (frame : String) : SMState :=
  smProcessPieces openWs supply now decode ws st
    ((jsSplit1 ';' frame.data).map String.mk)

/-! ## Concrete example data

Small states used by the counterexamples and witnesses below. -/

/-- A root object with one (well-formed) extra property. -/
def exRootObj : Obj :=
  { id := "r1", type := "root", name := "Root", props := [("a", .num 1)] }

/-- A child object with two well-formed properties. -/
def exItemObj : Obj :=
  { id := "c1", type := "item", name := "Sword",
    props := [("quality", .num 3), ("tag", .str "sharp")] }

/-- A two-object tree: the item under the root. -/
def exTree : OTree := .node exRootObj (.cons (.node exItemObj .nil) .nil)

/-- The store holding `exTree`. -/
def exStore : SState := storeOfTree exTree

/-- A root object with no extra properties: `saveData` writes it as
`root-r1 (Root) {}`, which the loader regex refuses. -/
def exEmptyObj : Obj := { id := "r1", type := "root", name := "Root", props := [] }

/-- The one-object tree of `exEmptyObj`. -/
def exEmptyTree : OTree := .node exEmptyObj .nil

/-- A line that matches no part of the object-line pattern. -/
def badLineA : List Char := "%%% corrupted %%%".data

/-- The connected client used by the init-protocol examples. -/
def exClient : CObj := { id := "c1", secret := "s1" }

/-- State with `exClient` connected (secret in both secret maps), one
dirty object pending replay, and one not-yet-flushed buffered message. -/
def stInitEx : SState :=
  { initState with
      id_dirty := [("r1", exRootObj)],
      id_buffer := [(BKey.strK "c1", [OutMsg.chatMsg "global" "pending"])],
      secret_object := [("s1", exClient)],
      secret_object_connected := [("s1", exClient)] }

/-- State with `exClient` known but disconnected (secret only in
`secret_object`) and one dirty object. -/
def stInitDisc : SState :=
  { initState with
      id_dirty := [("r1", exRootObj)],
      id_buffer := [(BKey.strK "c1", [OutMsg.chatMsg "global" "pending"])],
      secret_object := [("s1", exClient)] }

/-- Two `clientManager` clients: `k1` long idle, `k2` recently seen
(timeout 30000, "now" = 100000). -/
def cmC1 : CMClient := ⟨"k1", 1, 0⟩

/-- The recently-seen `clientManager` client. -/
def cmC2 : CMClient := ⟨"k2", 2, 99000⟩

/-- A `clientManager` state with one idle and one live client. -/
def cmStEx : CMState :=
  { clients := [("k1", cmC1), ("k2", cmC2)], wsToClientId := [(1, "k1"), (2, "k2")] }

/-- Two long-idle `GameServer` clients. -/
def gsCa : GSClient := ⟨"a", "sa", 0⟩

/-- The second long-idle `GameServer` client. -/
def gsCb : GSClient := ⟨"b", "sb", 0⟩

/-- A `GameServer` state in which *both* clients have timed out. -/
def gsStEx : GSState :=
  { clients := [("a", gsCa), ("b", gsCb)],
    clientBySecret := [("sa", gsCa), ("sb", gsCb)],
    wsByClient := [(gsCa, 1), (gsCb, 2)],
    bufferByClient := [(gsCa, []), (gsCb, [])] }

/-- A recently-seen `GameServer` client with a pending buffered message. -/
def gsCc : GSClient := ⟨"c", "sc", 99000⟩

/-- A `GameServer` state whose only client is live but has a closed
socket and a non-empty buffer. -/
def gsStFlush : GSState :=
  { clients := [("c", gsCc)],
    clientBySecret := [("sc", gsCc)],
    wsByClient := [(gsCc, 3)],
    bufferByClient := [(gsCc, ["m1"])] }

/-- A `socketManager` client with one batched message on socket 5. -/
def smCx : SMClient := ⟨5, 0, [SMOut.ackMessage]⟩

/-- A `socketManager` state with one registered client. -/
def smStEx : SMState :=
  { clients := [("x", smCx)], wsToClientId := [(5, "x")], gen := 0 }

/-- A concrete decoder for the `server.js` frame counterexample: only the
sub-message `"good"` parses (to an init with secret `s1`). -/
def svDecodeEx : String → Option SvDec :=
  fun s => if s = "good" then some ⟨some "init", some "s1"⟩ else none

/-- A concrete decoder for the `socketManager` frame examples: `"m"`
parses to a `message`, everything else fails. -/
def smDecodeEx : String → Option SMDec :=
  fun s => if s = "m" then some ⟨some "message", none, none⟩ else none

/-- A concrete id supply for `socketManager` examples. -/
def smSupplyEx : Nat → String := fun _ => "fresh"

/-- Unreachable junk entries for the save-reachability claim: present in
`id_object` but in no child list and not the root. -/
def exJunk : List (String × Obj) :=
  [("zz9", { id := "zz9", type := "junk", name := "Lost", props := [] })]

/-! ## Lemmas about the association-list map model -/

section MapLemmas

variable {κ α : Type} [DecidableEq κ]

theorem jget_append {A B : List (κ × α)} {k : κ} :
    jget (A ++ B) k = ((jget A k).rec (jget B k) fun v => some v : Option α) := by
  induction A with
  | nil => simp [jget]
  | cons p rest ih =>
    obtain ⟨k', v⟩ := p
    by_cases h : k' = k <;> simp [jget, h, ih]

theorem jget_append_of_none {A B : List (κ × α)} {k : κ}
    (h : jget A k = none) : jget (A ++ B) k = jget B k := by
  rw [jget_append, h]

theorem jget_append_of_some {A B : List (κ × α)} {k : κ} {v : α}
    (h : jget A k = some v) : jget (A ++ B) k = some v := by
  rw [jget_append, h]

theorem jget_singleton {k k' : κ} {v : α} :
    jget [(k, v)] k' = if k = k' then some v else none := by
  simp [jget]

theorem jset_absent {m : List (κ × α)} {k : κ} (v : α)
    (h : jget m k = none) : jset m k v = m ++ [(k, v)] := by
  induction m with
  | nil => simp [jset]
  | cons p rest ih =>
    obtain ⟨k', v'⟩ := p
    by_cases hk : k' = k
    · simp [jget, hk] at h
    · simp only [jget, hk, if_neg] at h
      simp [jset, hk, ih h]

theorem jget_jset_self {m : List (κ × α)} {k : κ} {v : α} :
    jget (jset m k v) k = some v := by
  induction m with
  | nil => simp [jset, jget]
  | cons p rest ih =>
    obtain ⟨k', v'⟩ := p
    by_cases hk : k' = k <;> simp [jset, jget, hk, ih]

theorem jget_jset_ne {m : List (κ × α)} {k k' : κ} {v : α} (h : k ≠ k') :
    jget (jset m k v) k' = jget m k' := by
  induction m with
  | nil => simp [jset, jget, h]
  | cons p rest ih =>
    obtain ⟨k2, v2⟩ := p
    by_cases hk : k2 = k
    · subst hk; simp [jset, jget, h]
    · simp [jset, hk, jget, ih]

theorem jget_jpushAll_self {m : List (κ × List α)} {k : κ} {xs : List α} :
    jget (jpushAll m k xs) k = (jget m k).map (· ++ xs) := by
  induction m with
  | nil => simp [jpushAll, jget]
  | cons p rest ih =>
    obtain ⟨k', v⟩ := p
    by_cases hk : k' = k <;> simp [jpushAll, jget, hk, ih]

theorem jget_jpushAll_ne {m : List (κ × List α)} {k k' : κ} {xs : List α}
    (h : k ≠ k') : jget (jpushAll m k xs) k' = jget m k' := by
  induction m with
  | nil => simp [jpushAll]
  | cons p rest ih =>
    obtain ⟨k2, v⟩ := p
    by_cases hk : k2 = k
    · subst hk; simp [jpushAll, jget, h, ih]
    · simp [jpushAll, hk, jget, ih]

theorem jpushAll_absent {m : List (κ × List α)} {k : κ} {xs : List α}
    (h : jget m k = none) : jpushAll m k xs = m := by
  induction m with
  | nil => simp [jpushAll]
  | cons p rest ih =>
    obtain ⟨k', v⟩ := p
    by_cases hk : k' = k
    · simp [jget, hk] at h
    · simp only [jget, hk, if_neg] at h
      simp [jpushAll, hk, ih h]

theorem jpushAll_append_left {A B : List (κ × List α)} {k : κ} {xs : List α}
    (h : (jget A k).isSome) : jpushAll (A ++ B) k xs = jpushAll A k xs ++ B := by
  induction A with
  | nil => simp [jget] at h
  | cons p rest ih =>
    obtain ⟨k', v⟩ := p
    by_cases hk : k' = k
    · simp [jpushAll, hk]
    · simp only [jget, hk, if_neg] at h
      simp [jpushAll, hk, ih h]

theorem jpushAll_append_right {A B : List (κ × List α)} {k : κ} {xs : List α}
    (h : jget A k = none) : jpushAll (A ++ B) k xs = A ++ jpushAll B k xs := by
  induction A with
  | nil => simp
  | cons p rest ih =>
    obtain ⟨k', v⟩ := p
    by_cases hk : k' = k
    · simp [jget, hk] at h
    · simp only [jget, hk, if_neg] at h
      simp [jpushAll, hk, ih h]

theorem jpushAll_jpushAll {m : List (κ × List α)} {k : κ} {xs ys : List α} :
    jpushAll (jpushAll m k xs) k ys = jpushAll m k (xs ++ ys) := by
  induction m with
  | nil => simp [jpushAll]
  | cons p rest ih =>
    obtain ⟨k', v⟩ := p
    by_cases hk : k' = k <;> simp [jpushAll, hk, ih]

theorem jpushAll_nil {m : List (κ × List α)} {k : κ} :
    jpushAll m k [] = m := by
  induction m with
  | nil => simp [jpushAll]
  | cons p rest ih =>
    obtain ⟨k', v⟩ := p
    by_cases hk : k' = k <;> simp [jpushAll, hk, ih]

theorem jget_eq_none_of_not_mem {m : List (κ × α)} {k : κ}
    (h : k ∉ m.map Prod.fst) : jget m k = none := by
  induction m with
  | nil => simp [jget]
  | cons p rest ih =>
    obtain ⟨k', v⟩ := p
    simp only [List.map_cons, List.mem_cons] at h
    push_neg at h
    have hne : ¬k' = k := fun hh => h.1 hh.symm
    simp [jget, hne, ih h.2]

theorem jget_jdelete_self {m : List (κ × α)} {k : κ}
    (hnd : (m.map Prod.fst).Nodup) : jget (jdelete m k) k = none := by
  induction m with
  | nil => simp [jdelete, jget]
  | cons p rest ih =>
    obtain ⟨k', v⟩ := p
    simp only [List.map_cons, List.nodup_cons] at hnd
    by_cases hk : k' = k
    · subst hk
      simp only [jdelete, if_pos rfl]
      exact jget_eq_none_of_not_mem hnd.1
    · simp [jdelete, hk, jget, ih hnd.2]

theorem jget_jdelete_ne {m : List (κ × α)} {k k' : κ} (h : k ≠ k') :
    jget (jdelete m k) k' = jget m k' := by
  induction m with
  | nil => simp [jdelete]
  | cons p rest ih =>
    obtain ⟨k2, v⟩ := p
    by_cases hk : k2 = k
    · subst hk; simp [jdelete, jget, h]
    · simp [jdelete, hk, jget, ih]

end MapLemmas

/-! ## Lemmas about the parent stack -/

theorem psGet_psSet_self (stk : List (Option Obj)) (i : Nat) (o : Obj) :
    psGet (psSet stk i o) i = some o := by
  unfold psSet psGet
  by_cases h : i < stk.length
  · rw [if_pos h, List.getElem?_set]
    simp [h]
  · rw [if_neg h, List.append_assoc,
      List.getElem?_append_right (by omega),
      List.getElem?_append_right (by simp)]
    simp

theorem psGet_psSet_lt (stk : List (Option Obj)) (i j : Nat) (o : Obj)
    (h : j < i) : psGet (psSet stk i o) j = psGet stk j := by
  unfold psSet psGet
  by_cases hi : i < stk.length
  · rw [if_pos hi, List.getElem?_set_ne (by omega)]
  · rw [if_neg hi, List.append_assoc]
    by_cases hj : j < stk.length
    · rw [List.getElem?_append_left hj]
    · rw [List.getElem?_append_right (by omega),
        List.getElem?_append_left (by simp; omega),
        List.getElem?_replicate, if_pos (by omega)]
      have hnone : stk[j]? = none := by
        rw [List.getElem?_eq_none_iff]
        omega
      simp [hnone]

/-! ## Characterisation of `handleInit` -/

theorem jpushAll_jset {κ α : Type} [DecidableEq κ] {m : List (κ × List α)}
    {k : κ} {v xs : List α} :
    jpushAll (jset m k v) k xs = jset m k (v ++ xs) := by
  induction m with
  | nil => simp [jset, jpushAll]
  | cons p rest ih =>
    obtain ⟨k', v'⟩ := p
    by_cases hk : k' = k <;> simp [jset, jpushAll, hk, ih]

/-- During a run every `id_buffer` key is a string, so the `has(client)`
test with the client object as key always fails. -/
theorem jhas_objK_false (st : SState) (hbuf : BufKeysWF st) (c : CObj) :
    jhas st.id_buffer (BKey.objK c) = false := by
  unfold jhas
  rw [jget_eq_none_of_not_mem]
  · rfl
  · intro hmem
    simp only [List.mem_map] at hmem
    obtain ⟨p, hp, hpk⟩ := hmem
    have hisStr := hbuf p hp
    rw [hpk] at hisStr
    exact Bool.noConfusion hisStr

/-- The dirty-replay loop of the `connected` handler appends one
`dirtyObj` message per `id_dirty` entry to the client's buffer. -/
theorem dirtyFold_spec (l : List (String × Obj)) (st : SState) (c : CObj) :
    l.foldl (fun s p => sendMsg s c (.dirtyObj p.2)) st =
      { st with id_buffer :=
                  jpushAll st.id_buffer (BKey.strK c.id)
                    (l.map fun p => OutMsg.dirtyObj p.2) } := by
  induction l generalizing st with
  | nil => simp [jpushAll_nil]
  | cons p rest ih =>
    simp only [List.foldl_cons, List.map_cons]
    rw [ih]
    simp [sendMsg, jpush, jpushAll_jpushAll]

/-- The `connected` handler buffers the welcome message only when not a
rejoin, then always buffers the whole dirty replay. -/
theorem connectedHandler_spec (st : SState) (c : CObj) (isNew isRejoin : Bool) :
    connectedHandler st c isNew isRejoin =
      { st with id_buffer :=
                  jpushAll st.id_buffer (BKey.strK c.id)
                    ((if isRejoin then [] else
                        [OutMsg.chatMsg "global"
                          ("Welcome" ++ (if isNew then "" else " back") ++ " " ++ c.id ++ "!")]) ++
                      st.id_dirty.map fun p => OutMsg.dirtyObj p.2) } := by
  cases isRejoin
  · unfold connectedHandler
    rw [if_neg Bool.false_ne_true, dirtyFold_spec]
    simp [sendMsg, jpush, jpushAll_jpushAll]
  · unfold connectedHandler
    rw [if_pos rfl, dirtyFold_spec]
    simp

/-- Full characterisation of a successful `handleInit`: the resolved
client's buffer is *reset* and then filled with the init response, the
welcome message (unless rejoining) and the full dirty replay; the secret
maps, socket maps and response are as shown.  (Used by several claims.) -/
theorem handleInit_spec (st : SState) (ws : Nat) (secret : Option String)
    (c : CObj) (rej : Bool) (hbuf : BufKeysWF st)
    (hres : svResolve st secret = some (c, rej)) :
    handleInit st ws secret = .ok
      ({ st with
          id_buffer :=
            jset st.id_buffer (BKey.strK c.id)
              (OutMsg.initResp ⟨30000, rej, none, c.id⟩ ::
                (if rej then [] else
                  [OutMsg.chatMsg "global" ("Welcome back " ++ c.id ++ "!")]) ++
                st.id_dirty.map fun p => OutMsg.dirtyObj p.2),
          secret_object := jset st.secret_object c.secret c,
          secret_object_connected := jset st.secret_object_connected c.secret c,
          id_ws := jset st.id_ws c.id ws,
          ws_secret := jset st.ws_secret ws c.secret },
        c, ⟨30000, rej, none, c.id⟩) := by
  unfold handleInit
  rw [hres]
  dsimp only
  rw [if_neg (by rw [jhas_objK_false st hbuf c]; exact Bool.false_ne_true)]
  rw [connectedHandler_spec]
  dsimp only [sendMsg, jpush]
  rw [jpushAll_jpushAll, jpushAll_jset]
  rfl

/-! ## C3 — persistence atomicity -/

/-- C3 counterexample: at the concrete store `exStore`, the `saveData`
trace opens a write stream directly on the final `data/objects.txt` and
contains no rename of a temporary location — contradicting the claim that
every save writes to a temporary location and renames it over the previous
file. -/
theorem c3_counterexample :
    (saveTrace exStore).head? = some (FsOp.createWriteStream objectsTxt) ∧
    ∀ op ∈ saveTrace exStore, op.isRename = false ∧ op.target = objectsTxt := by
  decide

/-- C3 (amended): `saveData` streams the new contents directly onto
`data/objects.txt` — its trace starts by opening (truncating) the final
path, every operation targets that path, and no rename occurs; a temp
directory plus rename appears only in the `part_002` `exitHandler`, which
removes the previous `data/objects` directory *before* the rename. -/
theorem c3_saveData_writes_directly (st : SState)
    (objects : List (String × GObj)) (rootObject : GObj) :
    (saveTrace st).head? = some (FsOp.createWriteStream objectsTxt) ∧
    (∀ op ∈ saveTrace st, op.isRename = false ∧ op.target = objectsTxt) ∧
    (∃ A, exitHandlerTrace objects rootObject =
      A ++ [FsOp.rmRec "data/objects", FsOp.rename "data/tmp" "data/objects"]) := by
  refine ⟨rfl, ?_, ⟨_, rfl⟩⟩
  intro op hop
  simp only [saveTrace, List.cons_append, List.mem_cons, List.mem_append,
    List.mem_map, List.mem_singleton] at hop
  rcases hop with rfl | ⟨l, _, rfl⟩ | rfl | h
  · exact ⟨rfl, rfl⟩
  · exact ⟨rfl, rfl⟩
  · exact ⟨rfl, rfl⟩
  · exact absurd h (List.not_mem_nil op)

/-! ## C2 — malformed persisted lines -/

/-- C2 counterexample: a file holding one well-formed line and one
malformed line loads without failing — the malformed line is silently
skipped and the well-formed object is fully loaded into a partial
in-memory tree, contradicting the fail-fast claim. -/
theorem c2_counterexample :
    findMatch (trimChars badLineA) = none ∧
    (loadData [renderLine exRootObj 0, badLineA] initState).id_object
      = [("r1", exRootObj)] ∧
    (loadData [renderLine exRootObj 0, badLineA] initState).root
      = some exRootObj := by
  decide

/-- C2 (amended): a line on which the object-line regex finds no match is
skipped by `continue` — the fold step leaves the store state and the
parent stack completely unchanged, and the remaining lines are loaded
normally; `loadData` never aborts. -/
theorem c2_malformed_line_skipped (st : SState) (stk : List (Option Obj))
    (line : List Char) (h : findMatch (trimChars line) = none) :
    loadLine (st, stk) line = (st, stk) := by
  simp only [loadLine, h]

/-- Witness for the amended C2 theorem at the concrete malformed line. -/
theorem c2_malformed_line_skipped_witness :
    findMatch (trimChars badLineA) = none ∧
    loadLine (initState, []) badLineA = (initState, []) :=
  ⟨by decide, c2_malformed_line_skipped initState [] badLineA (by decide)⟩

/-! ## C1 — save/load round-trip (counterexample half) -/

/-- C1 counterexample: the one-object tree whose root has no extra
properties is saved as the single line `root-r1 (Root) {}`; loading that
file back produces the empty store (`initState`) — the object set shrinks
from one id to none, so `load(save(tree))` is not isomorphic to the tree. -/
theorem c1_counterexample :
    saveLines (storeOfTree exEmptyTree) = [renderLine exEmptyObj 0] ∧
    loadData (saveLines (storeOfTree exEmptyTree)) initState = initState ∧
    (storeOfTree exEmptyTree).id_object = [("r1", exEmptyObj)] := by
  decide

/-! ## C4 — rejoin with a currently connected secret -/

/-- C4 counterexample: at the concrete state `stInitEx` (client `c1`
connected under secret `s1`, one dirty object pending), an init carrying
`s1` is answered with `rejoin = true`, but the response buffer *does*
contain the dirty-object replay message — the welcome/broadcast replay
sequence is sent again, contradicting the claim. -/
theorem c4_counterexample :
    (handleInit stInitEx 7 (some "s1")).toOption.map
        (fun r => (r.2.2.rejoin, jget r.1.id_buffer (BKey.strK "c1"))) =
      some (true, some [OutMsg.initResp ⟨30000, true, none, "c1"⟩,
        OutMsg.dirtyObj exRootObj]) := by
  decide

/-- C4 (amended): an init whose secret matches a currently connected
client is answered with `rejoin = true` and the welcome message is not
re-sent, but the full `id_dirty` replay *is* buffered again (into the
freshly reset buffer), on every such rejoin. -/
theorem c4_rejoin_marked_but_dirty_replayed (st : SState) (ws : Nat)
    (s : String) (c : CObj) (hbuf : BufKeysWF st)
    (hconn : jget st.secret_object_connected s = some c) :
    (handleInit st ws (some s)).toOption.map
        (fun r => (r.2.2, jget r.1.id_buffer (BKey.strK c.id))) =
      some (⟨30000, true, none, c.id⟩,
        some (OutMsg.initResp ⟨30000, true, none, c.id⟩ ::
          st.id_dirty.map fun p => OutMsg.dirtyObj p.2)) := by
  have hres : svResolve st (some s) = some (c, true) := by
    simp [svResolve, hconn]
  rw [handleInit_spec st ws (some s) c true hbuf hres]
  simp only [Except.toOption, Option.map_some']
  simp [jget_jset_self]

/-- Witness for the amended C4 theorem at `stInitEx`. -/
theorem c4_rejoin_marked_but_dirty_replayed_witness :
    (handleInit stInitEx 7 (some "s1")).toOption.map
        (fun r => (r.2.2, jget r.1.id_buffer (BKey.strK "c1"))) =
      some (⟨30000, true, none, "c1"⟩,
        some [OutMsg.initResp ⟨30000, true, none, "c1"⟩,
          OutMsg.dirtyObj exRootObj]) := by
  have h := c4_rejoin_marked_but_dirty_replayed stInitEx 7 "s1" exClient
    (by decide) (by decide)
  simpa using h

/-! ## C9 — `has(client)` vs `set(client.id)`: buffer reset on every init -/

/-- C9: on every successfully processed init, the object-keyed
`state.id_buffer.has(client)` test fails (all entries are string-keyed),
so the buffer is reset: afterwards the resolved client's buffer holds
exactly the messages of this init — the response, the welcome (unless
rejoining) and the dirty replay — and nothing previously buffered (the
right-hand side does not depend on the prior `id_buffer` at all). -/
theorem c9_init_resets_buffer (st : SState) (ws : Nat)
    (secret : Option String) (c : CObj) (rej : Bool) (hbuf : BufKeysWF st)
    (hres : svResolve st secret = some (c, rej)) :
    jhas st.id_buffer (BKey.objK c) = false ∧
    (handleInit st ws secret).toOption.map
        (fun r => jget r.1.id_buffer (BKey.strK c.id)) =
      some (some (OutMsg.initResp ⟨30000, rej, none, c.id⟩ ::
        (if rej then [] else
          [OutMsg.chatMsg "global" ("Welcome back " ++ c.id ++ "!")]) ++
        st.id_dirty.map fun p => OutMsg.dirtyObj p.2)) := by
  refine ⟨jhas_objK_false st hbuf c, ?_⟩
  rw [handleInit_spec st ws secret c rej hbuf hres]
  simp only [Except.toOption, Option.map_some']
  simp [jget_jset_self]

/-- Witness for C9 at `stInitDisc`: the previously buffered message
`"pending"` is discarded; only this init's messages remain. -/
theorem c9_init_resets_buffer_witness :
    jhas stInitDisc.id_buffer (BKey.objK exClient) = false ∧
    (handleInit stInitDisc 7 (some "s1")).toOption.map
        (fun r => jget r.1.id_buffer (BKey.strK "c1")) =
      some (some [OutMsg.initResp ⟨30000, false, none, "c1"⟩,
        OutMsg.chatMsg "global" "Welcome back c1!",
        OutMsg.dirtyObj exRootObj]) := by
  have h := c9_init_resets_buffer stInitDisc 7 (some "s1") exClient false
    (by decide) (by decide)
  exact ⟨h.1, by simpa using h.2⟩

/-! ## Supporting lemmas for the maintenance/eviction claims -/

theorem jget_of_mem_nodup {κ α : Type} [DecidableEq κ] {m : List (κ × α)}
    {k : κ} {v : α} (hnd : (m.map Prod.fst).Nodup) (hmem : (k, v) ∈ m) :
    jget m k = some v := by
  induction m with
  | nil => exact absurd hmem (List.not_mem_nil _)
  | cons p rest ih =>
    obtain ⟨k', v'⟩ := p
    simp only [List.map_cons, List.nodup_cons] at hnd
    rcases List.mem_cons.mp hmem with heq | hmem'
    · cases heq
      simp [jget]
    · have hne : k' ≠ k := by
        rintro rfl
        exact hnd.1 (List.mem_map.mpr ⟨(k', v), hmem', rfl⟩)
      simp [jget, hne, ih hnd.2 hmem']

theorem mem_of_jget {κ α : Type} [DecidableEq κ] {m : List (κ × α)}
    {k : κ} {v : α} (h : jget m k = some v) : (k, v) ∈ m := by
  induction m with
  | nil => simp [jget] at h
  | cons p rest ih =>
    obtain ⟨k', v'⟩ := p
    by_cases hk : k' = k
    · subst hk
      simp only [jget, if_pos] at h
      injection h with h
      subst h
      exact List.mem_cons_self _ _
    · simp only [jget, if_neg hk] at h
      exact List.mem_cons_of_mem _ (ih h)

/-- The clients map after the inactivity sweep: each timed-out entry of the
iteration snapshot is deleted, in order. -/
theorem cmCheckAux_clients (openWs : Nat → Bool) (now tmo : Int) :
    ∀ (todo : List (String × CMClient)) (st : CMState) (evs : List CMEv),
      (cmCheckAux openWs now tmo todo st evs).1.clients =
        List.foldl (fun m p => jdelete m p.1) st.clients
          (todo.filter fun p => decide (tmo < now - p.2.lastSeen)) := by
  intro todo
  induction todo with
  | nil => intro st evs; rfl
  | cons p rest ih =>
    intro st evs
    obtain ⟨cid, c⟩ := p
    by_cases h : tmo < now - c.lastSeen
    · simp only [cmCheckAux, if_pos h, List.filter_cons, decide_eq_true_eq, h,
        if_true, List.foldl_cons]
      rw [ih]
      rfl
    · simp only [cmCheckAux, if_neg h, List.filter_cons, decide_eq_true_eq, h,
        if_false]
      exact ih st evs

theorem foldl_jdelete_cons {m : List (String × CMClient)}
    {p : String × CMClient} :
    ∀ (ops : List (String × CMClient)), (∀ q ∈ ops, q.1 ≠ p.1) →
      List.foldl (fun m q => jdelete m q.1) (p :: m) ops =
        p :: List.foldl (fun m q => jdelete m q.1) m ops := by
  intro ops
  induction ops generalizing m with
  | nil => intro _; rfl
  | cons q rest ih =>
    intro hops
    have hq : q.1 ≠ p.1 := hops q (List.mem_cons_self _ _)
    simp only [List.foldl_cons]
    have hstep : jdelete (p :: m) q.1 = p :: jdelete m q.1 := by
      obtain ⟨pk, pv⟩ := p
      have hne : ¬pk = q.1 := fun hh => hq hh.symm
      simp [jdelete, hne]
    rw [hstep, ih fun r hr => hops r (List.mem_cons_of_mem _ hr)]

/-- Deleting exactly the timed-out keys from a Nodup-keyed list is the
same as filtering the list down to the still-live entries. -/
theorem foldl_jdelete_filter (now tmo : Int) :
    ∀ (l : List (String × CMClient)), (l.map Prod.fst).Nodup →
      List.foldl (fun m p => jdelete m p.1) l
          (l.filter fun p => decide (tmo < now - p.2.lastSeen)) =
        l.filter (fun p => decide (now - p.2.lastSeen ≤ tmo)) := by
  intro l
  induction l with
  | nil => intro _; rfl
  | cons p rest ih =>
    intro hnd
    simp only [List.map_cons, List.nodup_cons] at hnd
    by_cases h : tmo < now - p.2.lastSeen
    · simp only [List.filter_cons, decide_eq_true_eq, h, if_true,
        List.foldl_cons]
      have hdel : jdelete (p :: rest) p.1 = rest := by
        obtain ⟨pk, pv⟩ := p
        simp [jdelete]
      rw [hdel, ih hnd.2]
      have hns : ¬now - p.2.lastSeen ≤ tmo := by omega
      simp [List.filter_cons, hns]
    · simp only [List.filter_cons, decide_eq_true_eq, h, if_false]
      have hops : ∀ q ∈ rest.filter fun p => decide (tmo < now - p.2.lastSeen),
          q.1 ≠ p.1 := by
        intro q hq
        have hq' := List.mem_of_mem_filter hq
        intro hk
        exact hnd.1 (List.mem_map.mpr ⟨q, hq', hk⟩)
      rw [foldl_jdelete_cons _ hops, ih hnd.2]
      have hs : now - p.2.lastSeen ≤ tmo := by omega
      simp [List.filter_cons, hs]

/-- Events only accumulate through the sweep. -/
theorem cmCheckAux_events_mono (openWs : Nat → Bool) (now tmo : Int) :
    ∀ todo st evs, ∃ tail,
      (cmCheckAux openWs now tmo todo st evs).2 = evs ++ tail := by
  intro todo
  induction todo with
  | nil => intro st evs; exact ⟨[], by simp [cmCheckAux]⟩
  | cons p rest ih =>
    intro st evs
    obtain ⟨cid, c⟩ := p
    by_cases h : tmo < now - c.lastSeen
    · simp only [cmCheckAux, if_pos h]
      obtain ⟨tail, htail⟩ := ih (removeClient openWs st cid c.ws).1
        (evs ++ (removeClient openWs st cid c.ws).2)
      exact ⟨(removeClient openWs st cid c.ws).2 ++ tail, by
        rw [htail, List.append_assoc]⟩
    · simp only [cmCheckAux, if_neg h]
      exact ih st evs

/-- Each timed-out client of the snapshot gets its socket closed and a
`disconnected` broadcast whose recipients include every entry of `S` —
`S` standing for any set of live, open-socket survivors that the sweep
never deletes. -/
theorem cmCheckAux_events_spec (openWs : Nat → Bool) (now tmo : Int)
    (S : List (String × CMClient)) :
    ∀ (todo : List (String × CMClient)) (st : CMState) (evs : List CMEv),
      (todo.map Prod.fst).Nodup →
      (∀ p ∈ todo, jget st.clients p.1 = some p.2) →
      (∀ q ∈ S, jget st.clients q.1 = some q.2 ∧
        ¬(tmo < now - q.2.lastSeen) ∧ openWs q.2.ws = true) →
      ∀ p ∈ todo, tmo < now - p.2.lastSeen →
        CMEv.closeWs p.2.ws ∈ (cmCheckAux openWs now tmo todo st evs).2 ∧
        ∃ recips,
          CMEv.disconnected p.2.clientId recips ∈
            (cmCheckAux openWs now tmo todo st evs).2 ∧
          ∀ q ∈ S, q.1 ∈ recips := by
  intro todo
  induction todo with
  | nil => intro st evs _ _ _ p hp; exact absurd hp (List.not_mem_nil _)
  | cons hd rest ih =>
    intro st evs hnd hsub hS p hp htime
    obtain ⟨cid, c⟩ := hd
    simp only [List.map_cons, List.nodup_cons] at hnd
    rcases List.mem_cons.mp hp with heq | hmem
    · -- p is the head: it is removed right now
      subst heq
      simp only [cmCheckAux, if_pos htime]
      have hc : jget st.clients cid = some c := hsub _ (List.mem_cons_self _ _)
      have hrem : (removeClient openWs st cid c.ws).2 =
          [CMEv.disconnected c.clientId (cmRecipients openWs st), CMEv.closeWs c.ws] := by
        simp [removeClient, hc]
      obtain ⟨tail, htail⟩ := cmCheckAux_events_mono openWs now tmo rest
        (removeClient openWs st cid c.ws).1
        (evs ++ (removeClient openWs st cid c.ws).2)
      rw [htail, hrem]
      constructor
      · simp
      · refine ⟨cmRecipients openWs st, by simp, ?_⟩
        intro q hq
        obtain ⟨hqget, _, hqopen⟩ := hS q hq
        have hqmem : (q.1, q.2) ∈ st.clients := mem_of_jget hqget
        simp only [cmRecipients, List.mem_map]
        exact ⟨(q.1, q.2), List.mem_filter.mpr ⟨hqmem, hqopen⟩, rfl⟩
    · -- p is later in the snapshot
      by_cases hh : tmo < now - c.lastSeen
      · -- the head is also removed first
        simp only [cmCheckAux, if_pos hh]
        have hc : jget st.clients cid = some c := hsub _ (List.mem_cons_self _ _)
        refine ih (removeClient openWs st cid c.ws).1 _ hnd.2 ?_ ?_ p hmem htime
        · intro r hr
          have hr' := hsub r (List.mem_cons_of_mem _ hr)
          have hne : cid ≠ r.1 := by
            rintro rfl
            exact hnd.1 (List.mem_map.mpr ⟨r, hr, rfl⟩)
          simpa [removeClient, jget_jdelete_ne hne] using hr'
        · intro q hq
          obtain ⟨hqget, hqlive, hqopen⟩ := hS q hq
          have hne : cid ≠ q.1 := by
            rintro rfl
            rw [hqget] at hc
            injection hc with hc'
            rw [← hc'] at hh
            exact hqlive hh
          exact ⟨by simpa [removeClient, jget_jdelete_ne hne] using hqget,
            hqlive, hqopen⟩
      · simp only [cmCheckAux, if_neg hh]
        exact ih st evs hnd.2
          (fun r hr => hsub r (List.mem_cons_of_mem _ hr)) hS p hmem htime

/-- The `GameServer` tick stops at the first timed-out client: the flush
steps before it never touch `clients`, and the early `return` leaves every
later entry in place. -/
theorem gsTickAux_first_eviction (openWs : Nat → Bool) (now tmo : Int)
    (cid : String) (c : GSClient) (post : List (String × GSClient)) :
    ∀ (pre : List (String × GSClient)) (st : GSState) (evs : List GSEv),
      (∀ p ∈ pre, ¬(tmo < now - p.2.lastSeen)) →
      tmo < now - c.lastSeen →
      (gsTickAux openWs now tmo (pre ++ (cid, c) :: post) st evs).1.clients =
        jdelete st.clients c.id := by
  intro pre
  induction pre with
  | nil =>
    intro st evs _ htime
    simp only [List.nil_append, gsTickAux, if_pos htime]
    rfl
  | cons p rest ih =>
    intro st evs hpre htime
    obtain ⟨pk, pc⟩ := p
    have hp : ¬(tmo < now - pc.lastSeen) := hpre _ (List.mem_cons_self _ _)
    have hrest : ∀ q ∈ rest, ¬(tmo < now - q.2.lastSeen) :=
      fun q hq => hpre q (List.mem_cons_of_mem _ hq)
    simp only [List.cons_append, gsTickAux, if_neg hp]
    cases hws : jget st.wsByClient pc with
    | none => exact ih st evs hrest htime
    | some w =>
      dsimp only
      by_cases hsend : openWs w ∧ (jget st.bufferByClient pc).getD [] ≠ []
      · rw [if_pos hsend]
        exact ih _ _ hrest htime
      · rw [if_neg hsend]
        exact ih st evs hrest htime

/-! ## C5 — timeout eviction -/

/-- C5 counterexample: in the `GameServer` maintenance tick (`part_002`
40-55) with two timed-out clients, only the first is evicted — the
`return` exits the loop, the second client stays in every map, its socket
is not closed, and no `disconnected` notice of any kind is emitted
(the tick's event vocabulary has none). -/
theorem c5_counterexample :
    (gsMaintenance (fun _ => true) 100000 30000 gsStEx).1.clients
      = [("b", gsCb)] ∧
    (gsMaintenance (fun _ => true) 100000 30000 gsStEx).2
      = [GSEv.closeWs 1] := by
  decide

/-- C5 (amended): in `clientManager.js`, one sweep of
`checkInactiveClients` removes *every* client whose inactivity exceeds the
timeout (the survivors are exactly the filter of the original map), and
each evicted client gets its socket closed and a `disconnected` broadcast
delivered to every live open-socket survivor; in the `GameServer` variant
the tick evicts only the *first* timed-out client found and leaves the
rest for later ticks. -/
theorem c5_eviction_behaviour (openWs : Nat → Bool) (now tmo : Int)
    (st : CMState) (hnd : (st.clients.map Prod.fst).Nodup)
    (gcid : String) (gc : GSClient) (gpre gpost : List (String × GSClient))
    (gst : GSState) (hgsplit : gst.clients = gpre ++ (gcid, gc) :: gpost)
    (hgpre : ∀ p ∈ gpre, ¬(tmo < now - p.2.lastSeen))
    (hgc : tmo < now - gc.lastSeen) :
    (checkInactiveClients openWs now tmo st).1.clients =
      st.clients.filter (fun p => decide (now - p.2.lastSeen ≤ tmo)) ∧
    (∀ p ∈ st.clients, tmo < now - p.2.lastSeen →
      CMEv.closeWs p.2.ws ∈ (checkInactiveClients openWs now tmo st).2 ∧
      ∃ recips,
        CMEv.disconnected p.2.clientId recips ∈
          (checkInactiveClients openWs now tmo st).2 ∧
        ∀ q ∈ st.clients, ¬(tmo < now - q.2.lastSeen) → openWs q.2.ws = true →
          q.1 ∈ recips) ∧
    (gsMaintenance openWs now tmo gst).1.clients = jdelete gst.clients gc.id := by
  refine ⟨?_, ?_, ?_⟩
  · unfold checkInactiveClients
    rw [cmCheckAux_clients, foldl_jdelete_filter now tmo st.clients hnd]
  · intro p hp htime
    have hspec := cmCheckAux_events_spec openWs now tmo
      (st.clients.filter fun q => decide (¬(tmo < now - q.2.lastSeen) ∧ openWs q.2.ws = true))
      st.clients st [] hnd
      (fun r hr => jget_of_mem_nodup hnd (by simpa using hr))
      ?_ p hp htime
    · obtain ⟨hclose, recips, hmem, hrec⟩ := hspec
      refine ⟨hclose, recips, hmem, ?_⟩
      intro q hq hqlive hqopen
      exact hrec q (List.mem_filter.mpr ⟨hq, by simp [hqlive, hqopen]⟩)
    · intro q hq
      have hq1 := List.mem_of_mem_filter hq
      have hq2 := List.of_mem_filter hq
      simp only [decide_eq_true_eq] at hq2
      exact ⟨jget_of_mem_nodup hnd (by simpa using hq1), hq2.1, hq2.2⟩
  · unfold gsMaintenance
    have h2 := gsTickAux_first_eviction openWs now tmo gcid gc gpost gpre gst [] hgpre hgc
    rw [hgsplit] at h2 ⊢
    exact h2

/-- Witness for the amended C5 theorem: concrete states in which `k1` has
timed out and `k2` survives (clientManager), and both `a` and `b` have
timed out (GameServer) — the clientManager sweep keeps exactly `k2`, the
GameServer tick deletes exactly `a`. -/
theorem c5_eviction_behaviour_witness :
    (cmStEx.clients.map Prod.fst).Nodup ∧
    (checkInactiveClients (fun _ => true) 100000 30000 cmStEx).1.clients =
      cmStEx.clients.filter (fun p => decide ((100000 : Int) - p.2.lastSeen ≤ 30000)) ∧
    (gsMaintenance (fun _ => true) 100000 30000 gsStEx).1.clients =
      jdelete gsStEx.clients gsCa.id := by
  have h := c5_eviction_behaviour (fun _ => true) 100000 30000 cmStEx
    (by decide) "a" gsCa [] [("b", gsCb)] gsStEx (by decide)
    (by intro p hp; exact absurd hp (List.not_mem_nil _)) (by decide)
  exact ⟨by decide, h.1, h.2.2⟩

/-! ## C6 — disconnection deletes; restoration is from disk -/

/-- A persisted-file name ending in `-${secret}.json` is found by the
`endsWith` search of the `GameServer` init path. -/
theorem strEndsWith_fileName (cid s : String) :
    strEndsWith (cid ++ "-" ++ s ++ ".json") ("-" ++ s ++ ".json") = true := by
  unfold strEndsWith
  apply List.isSuffixOf_iff_suffix.mpr
  simp only [String.data_append, List.append_assoc]
  exact List.suffix_append _ _

/-- C6 counterexample: eviction structurally deletes the client —
after `removeClient` (`clientManager.js`) the entry for `k1` is gone from
the clients map, and after `handleInactiveClient` (`part_002`) the entry
for `a` is gone from all maps; no ghost flag exists anywhere. -/
theorem c6_counterexample :
    jget cmStEx.clients "k1" = some cmC1 ∧
    jget (removeClient (fun _ => true) cmStEx "k1" 1).1.clients "k1" = none ∧
    jget gsStEx.clients "a" = some gsCa ∧
    jget (handleInactiveClient gsStEx gsCa).1.clients "a" = none ∧
    jget (handleInactiveClient gsStEx gsCa).1.clientBySecret "sa" = none := by
  decide

/-- C6 (amended): disconnection *deletes* the in-memory client entry
(`removeClient` and `handleInactiveClient` remove it from the maps; there
is no ghost flag in the code); prior state survives only through the
on-disk record written at client creation — after eviction, an init with
the same secret misses the in-memory map and revives exactly the persisted
record found by the `-${secret}.json` filename search. -/
theorem c6_disconnect_deletes_entry (openWs : Nat → Bool) (st : CMState)
    (cid : String) (ws : Nat) (gst : GSState) (c : GSClient) (c0 : GSClient)
    (hnd : (gst.clientBySecret.map Prod.fst).Nodup) :
    (removeClient openWs st cid ws).1.clients = jdelete st.clients cid ∧
    (handleInactiveClient gst c).1.clients = jdelete gst.clients c.id ∧
    (handleInactiveClient gst c).1.clientBySecret =
      jdelete gst.clientBySecret c.secret ∧
    gsResolveBySecret (handleInactiveClient gst c).1
        [(gsFileName c, c0)] (some c.secret) = some (c0, false) := by
  refine ⟨rfl, rfl, rfl, ?_⟩
  unfold gsResolveBySecret
  dsimp only
  have hnone : jget (handleInactiveClient gst c).1.clientBySecret c.secret = none := by
    show jget (jdelete gst.clientBySecret c.secret) c.secret = none
    exact jget_jdelete_self hnd
  rw [hnone]
  have hends := strEndsWith_fileName c.id c.secret
  simp [List.find?_cons, gsFileName, hends]

/-- Witness for the amended C6 theorem: evicting `gsCa` and then
resolving an init with its secret against its persisted record returns
that record. -/
theorem c6_disconnect_deletes_entry_witness :
    (gsStEx.clientBySecret.map Prod.fst).Nodup ∧
    (removeClient (fun _ => true) cmStEx "k1" 1).1.clients =
      jdelete cmStEx.clients "k1" ∧
    gsResolveBySecret (handleInactiveClient gsStEx gsCa).1
      [(gsFileName gsCa, gsCa)] (some gsCa.secret) = some (gsCa, false) := by
  have h := c6_disconnect_deletes_entry (fun _ => true) cmStEx "k1" 1
    gsStEx gsCa gsCa (by decide)
  exact ⟨by decide, h.1, h.2.2.2⟩

/-! ## C7 — flushing clears buffers even for closed sockets -/

/-- One pass of `flushBatchedMessages`: the clients map gets every
non-empty batch cleared (open or not), and a send event is emitted only
for the open sockets. -/
theorem flushAux_spec (openWs : Nat → Bool) :
    ∀ (todo : List (String × SMClient)) (st : SMState) (evs : List SMEv),
      flushAux openWs todo st evs =
        ({ st with clients :=
              todo.foldl (fun m p =>
                if p.2.batched ≠ [] then jset m p.1 { p.2 with batched := [] }
                else m) st.clients },
          evs ++ todo.filterMap (fun p =>
            if p.2.batched ≠ [] ∧ openWs p.2.ws = true then
              some (SMEv.sendWs p.2.ws p.2.batched)
            else none)) := by
  intro todo
  induction todo with
  | nil => intro st evs; simp [flushAux]
  | cons p rest ih =>
    intro st evs
    obtain ⟨cid, c⟩ := p
    by_cases hb : c.batched ≠ []
    · by_cases ho : openWs c.ws = true
      · simp only [flushAux, if_pos hb, if_pos ho, ih, List.foldl_cons,
          List.filterMap_cons]
        rw [if_pos (show c.batched ≠ [] ∧ openWs c.ws = true from ⟨hb, ho⟩)]
        simp
      · simp only [flushAux, if_pos hb, if_neg ho, ih, List.foldl_cons,
          List.filterMap_cons]
        rw [if_neg (show ¬(c.batched ≠ [] ∧ openWs c.ws = true) from
          fun hc => ho hc.2)]
    · simp only [flushAux, if_neg hb, ih, List.foldl_cons, List.filterMap_cons]
      rw [if_neg (show ¬(c.batched ≠ [] ∧ openWs c.ws = true) from
        fun hc => hb hc.1)]

theorem foldl_flushClear_cons {p : String × SMClient} :
    ∀ (ops : List (String × SMClient)) (m : List (String × SMClient)),
      (∀ q ∈ ops, q.1 ≠ p.1) →
      ops.foldl (fun m q =>
          if q.2.batched ≠ [] then jset m q.1 { q.2 with batched := [] }
          else m) (p :: m) =
        p :: ops.foldl (fun m q =>
          if q.2.batched ≠ [] then jset m q.1 { q.2 with batched := [] }
          else m) m := by
  intro ops
  induction ops with
  | nil => intro m _; rfl
  | cons q rest ih =>
    intro m hops
    have hq : q.1 ≠ p.1 := hops q (List.mem_cons_self _ _)
    simp only [List.foldl_cons]
    by_cases hb : q.2.batched ≠ []
    · rw [if_pos hb, if_pos hb]
      have hstep : jset (p :: m) q.1 { q.2 with batched := [] } =
          p :: jset m q.1 { q.2 with batched := [] } := by
        obtain ⟨pk, pv⟩ := p
        have hne : ¬pk = q.1 := fun hh => hq hh.symm
        simp [jset, hne]
      rw [hstep]
      exact ih (jset m q.1 { q.2 with batched := [] })
        fun r hr => hops r (List.mem_cons_of_mem _ hr)
    · rw [if_neg hb, if_neg hb]
      exact ih m fun r hr => hops r (List.mem_cons_of_mem _ hr)

/-- An `SMClient` whose batch is already empty is unchanged by clearing. -/
theorem smclient_clear_eta {c : SMClient} (h : ¬c.batched ≠ []) :
    ({ c with batched := [] } : SMClient) = c := by
  obtain ⟨w, l, b⟩ := c
  simp only [not_not] at h
  simpa using h.symm

/-- Folding the clearing step of `flushBatchedMessages` over the whole
(Nodup-keyed) clients map empties every batch. -/
theorem foldl_flushClear_map :
    ∀ (l : List (String × SMClient)), ((l.map Prod.fst).Nodup) →
      l.foldl (fun m p =>
          if p.2.batched ≠ [] then jset m p.1 { p.2 with batched := [] }
          else m) l =
        l.map (fun p => (p.1, { p.2 with batched := [] })) := by
  intro l
  induction l with
  | nil => intro _; rfl
  | cons p rest ih =>
    intro hnd
    simp only [List.map_cons, List.nodup_cons] at hnd
    have hops : ∀ q ∈ rest, q.1 ≠ p.1 := by
      intro q hq hk
      exact hnd.1 (List.mem_map.mpr ⟨q, hq, hk⟩)
    by_cases hb : p.2.batched ≠ []
    · simp only [List.foldl_cons, if_pos hb]
      have hset : jset (p :: rest) p.1 { p.2 with batched := [] } =
          (p.1, { p.2 with batched := [] }) :: rest := by
        obtain ⟨pk, pv⟩ := p
        simp [jset]
      rw [hset, foldl_flushClear_cons rest rest
        (by intro q hq hk; exact hnd.1 (List.mem_map.mpr ⟨q, hq, hk⟩)), ih hnd.2]
      rfl
    · simp only [List.foldl_cons, if_neg hb]
      rw [foldl_flushClear_cons rest rest hops, ih hnd.2]
      simp [smclient_clear_eta hb]

/-- The `GameServer` tick retains the buffer of a client whose socket is
not open (given no client times out this tick). -/
theorem gsTickAux_retains_closed (openWs : Nat → Bool) (now tmo : Int)
    (x : GSClient) :
    ∀ (todo : List (String × GSClient)) (st : GSState) (evs : List GSEv),
      (∀ p ∈ todo, ¬(tmo < now - p.2.lastSeen)) →
      (∀ w, jget st.wsByClient x = some w → openWs w = false) →
      jget (gsTickAux openWs now tmo todo st evs).1.bufferByClient x =
        jget st.bufferByClient x := by
  intro todo
  induction todo with
  | nil => intro st evs _ _; rfl
  | cons p rest ih =>
    intro st evs hall hx
    obtain ⟨pk, pc⟩ := p
    have hp : ¬(tmo < now - pc.lastSeen) := hall _ (List.mem_cons_self _ _)
    have hrest : ∀ q ∈ rest, ¬(tmo < now - q.2.lastSeen) :=
      fun q hq => hall q (List.mem_cons_of_mem _ hq)
    simp only [gsTickAux, if_neg hp]
    cases hws : jget st.wsByClient pc with
    | none => exact ih st evs hrest hx
    | some w =>
      dsimp only
      by_cases hsend : openWs w ∧ (jget st.bufferByClient pc).getD [] ≠ []
      · rw [if_pos hsend]
        have hne : pc ≠ x := by
          rintro rfl
          rw [hx w hws] at hsend
          exact Bool.noConfusion hsend.1
        rw [ih _ _ hrest (by simpa using hx)]
        exact jget_jset_ne hne
      · rw [if_neg hsend]
        exact ih st evs hrest hx

/-- C7 counterexample: a client with a non-open socket and one batched
message: `flushBatchedMessages` sends nothing but still clears the batch —
the message is dropped, not retained for the next tick. -/
theorem c7_counterexample :
    smStEx.clients = [("x", ⟨5, 0, [SMOut.ackMessage]⟩)] ∧
    (flushBatchedMessages (fun _ => false) smStEx).2 = [] ∧
    jget (flushBatchedMessages (fun _ => false) smStEx).1.clients "x" =
      some ⟨5, 0, []⟩ := by
  decide

/-- C7 (amended): `flushBatchedMessages` clears *every* non-empty batch
while sending only to open sockets — a closed-socket client's buffered
messages are dropped, not retained; only the `GameServer` variant's
maintenance loop (`part_002` 48-53) leaves a closed socket's buffer in
place for the next tick. -/
theorem c7_flush_clears_closed_buffers (openWs : Nat → Bool) (st : SMState)
    (hnd : (st.clients.map Prod.fst).Nodup)
    (now tmo : Int) (gst : GSState) (x : GSClient)
    (hall : ∀ p ∈ gst.clients, ¬(tmo < now - p.2.lastSeen))
    (hx : ∀ w, jget gst.wsByClient x = some w → openWs w = false) :
    (flushBatchedMessages openWs st).1.clients =
      st.clients.map (fun p => (p.1, { p.2 with batched := [] })) ∧
    (flushBatchedMessages openWs st).2 =
      st.clients.filterMap (fun p =>
        if p.2.batched ≠ [] ∧ openWs p.2.ws = true then
          some (SMEv.sendWs p.2.ws p.2.batched)
        else none) ∧
    jget (gsMaintenance openWs now tmo gst).1.bufferByClient x =
      jget gst.bufferByClient x := by
  refine ⟨?_, ?_, ?_⟩
  · unfold flushBatchedMessages
    rw [flushAux_spec]
    exact foldl_flushClear_map st.clients hnd
  · unfold flushBatchedMessages
    rw [flushAux_spec]
    simp
  · exact gsTickAux_retains_closed openWs now tmo x gst.clients gst [] hall hx

/-- Witness for the amended C7 theorem at concrete states: the
socket-manager buffer is emptied with no send; the GameServer buffer of
the closed-socket client `gsCc` is retained. -/
theorem c7_flush_clears_closed_buffers_witness :
    (flushBatchedMessages (fun _ => false) smStEx).1.clients =
      smStEx.clients.map (fun p => (p.1, { p.2 with batched := [] })) ∧
    jget (gsMaintenance (fun _ => false) 100000 30000 gsStFlush).1.bufferByClient
      gsCc = jget gsStFlush.bufferByClient gsCc := by
  have h := c7_flush_clears_closed_buffers (fun _ => false) smStEx (by decide)
    100000 30000 gsStFlush gsCc (by decide) (by intro w _; rfl)
  exact ⟨h.1, h.2.2⟩

/-! ## Round-trip development: character facts -/

theorem digit_not_ws {c : Char} (h : c.isDigit = true) :
    c.isWhitespace = false := by
  cases hb : c.isWhitespace with
  | false => rfl
  | true =>
    exfalso
    unfold Char.isWhitespace at hb
    simp only [Bool.or_eq_true, decide_eq_true_eq] at hb
    rcases hb with ((rfl | rfl) | rfl) | rfl <;> exact absurd h (by decide)

theorem digit_char_facts {c : Char} (h : c.isDigit = true) :
    c ≠ ',' ∧ c ≠ ':' ∧ c ≠ braceR ∧ markerChar c = false ∧ c ≠ '\n' ∧
    c ≠ '-' ∧ c ≠ '+' ∧ c ≠ ')' ∧ wordChar c = true := by
  refine ⟨?_, ?_, ?_, ?_, ?_, ?_, ?_, ?_, ?_⟩
  · rintro rfl; exact absurd h (by decide)
  · rintro rfl; exact absurd h (by decide)
  · rintro rfl; exact absurd h (by decide)
  · cases hm : markerChar c with
    | false => rfl
    | true =>
      exfalso
      unfold markerChar at hm
      simp only [Bool.or_eq_true, decide_eq_true_eq] at hm
      rcases hm with rfl | rfl <;> exact absurd h (by decide)
  · rintro rfl; exact absurd h (by decide)
  · rintro rfl; exact absurd h (by decide)
  · rintro rfl; exact absurd h (by decide)
  · rintro rfl; exact absurd h (by decide)
  · simp [wordChar, Char.isAlphanum, h]

theorem word_not_ws {c : Char} (h : wordChar c = true) :
    c.isWhitespace = false := by
  cases hb : c.isWhitespace with
  | false => rfl
  | true =>
    exfalso
    unfold Char.isWhitespace at hb
    simp only [Bool.or_eq_true, decide_eq_true_eq] at hb
    rcases hb with ((rfl | rfl) | rfl) | rfl <;> exact absurd h (by decide)

theorem word_not_marker {c : Char} (h : wordChar c = true) :
    markerChar c = false := by
  cases hm : markerChar c with
  | false => rfl
  | true =>
    exfalso
    unfold markerChar at hm
    simp only [Bool.or_eq_true, decide_eq_true_eq] at hm
    rcases hm with rfl | rfl <;> exact absurd h (by decide)

theorem word_ne_dash {c : Char} (h : wordChar c = true) : c ≠ '-' := by
  rintro rfl; exact absurd h (by decide)

theorem word_ne_space {c : Char} (h : wordChar c = true) : c ≠ ' ' := by
  rintro rfl; exact absurd h (by decide)

/-! ## Round-trip development: decimal render/parse -/

theorem digitsVal_append_singleton (xs : List Char) (c : Char) :
    digitsVal (xs ++ [c]) = 10 * digitsVal xs + (c.toNat - 48) := by
  unfold digitsVal
  rw [List.foldl_append]
  rfl

theorem renderNatAux_spec :
    ∀ (fuel n : Nat), n < fuel →
      (renderNatAux fuel n).all Char.isDigit = true ∧
      renderNatAux fuel n ≠ [] ∧
      digitsVal (renderNatAux fuel n) = n := by
  intro fuel
  induction fuel with
  | zero => intro n h; omega
  | succ f ih =>
    intro n h
    by_cases h10 : n < 10
    · unfold renderNatAux
      rw [if_pos h10]
      refine ⟨?_, by simp, ?_⟩
      · interval_cases n <;> decide
      · interval_cases n <;> decide
    · unfold renderNatAux
      rw [if_neg h10]
      have hdiv : n / 10 < n := Nat.div_lt_self (by omega) (by omega)
      have hf : n / 10 < f := by omega
      obtain ⟨ha, hne, hval⟩ := ih (n / 10) hf
      have hm : n % 10 < 10 := Nat.mod_lt _ (by omega)
      refine ⟨?_, by simp, ?_⟩
      · rw [List.all_append, ha]
        simp only [Bool.true_and, List.all_cons, List.all_nil, Bool.and_true]
        interval_cases hmod : n % 10 <;> simp_all <;> decide
      · rw [digitsVal_append_singleton, hval]
        have htn : (digitChar (n % 10)).toNat - 48 = n % 10 := by
          interval_cases hmod : n % 10 <;> simp_all <;> decide
        rw [htn]
        omega

theorem renderNat_spec (n : Nat) :
    (renderNat n).all Char.isDigit = true ∧ renderNat n ≠ [] ∧
    digitsVal (renderNat n) = n :=
  renderNatAux_spec (n + 1) n (Nat.lt_succ_self n)

theorem takeWhile_eq_self_of_all {p : Char → Bool} :
    ∀ {l : List Char}, l.all p = true → l.takeWhile p = l := by
  intro l
  induction l with
  | nil => intro _; rfl
  | cons c rest ih =>
    intro h
    simp only [List.all_cons, Bool.and_eq_true] at h
    simp [List.takeWhile_cons, h.1, ih h.2]

theorem dropWhile_ws_of_all_digit {l : List Char} (h : l.all Char.isDigit = true) :
    l.dropWhile Char.isWhitespace = l := by
  cases l with
  | nil => rfl
  | cons c rest =>
    simp only [List.all_cons, Bool.and_eq_true] at h
    simp [List.dropWhile_cons, digit_not_ws h.1]

/-- `parseFloat` of a non-empty all-digit string is its decimal value. -/
theorem jsParseFloat_digits {l : List Char} (ha : l.all Char.isDigit = true)
    (hne : l ≠ []) : jsParseFloat l = some ((digitsVal l : Int)) := by
  obtain ⟨d, t, rfl⟩ := List.exists_cons_of_ne_nil hne
  have hd : d.isDigit = true := by
    have h' := ha
    simp only [List.all_cons, Bool.and_eq_true] at h'
    exact h'.1
  have hf := digit_char_facts hd
  have hm : d ≠ '-' := hf.2.2.2.2.2.1
  have hp : d ≠ '+' := hf.2.2.2.2.2.2.1
  have hor : ¬(d = '-' ∨ d = '+') := fun h => h.elim hm hp
  unfold jsParseFloat
  dsimp only
  rw [dropWhile_ws_of_all_digit ha]
  simp only [List.headD_cons]
  rw [if_neg hm, if_neg hor]
  rw [takeWhile_eq_self_of_all ha]
  simp

/-- `parseFloat` of a minus sign followed by digits is the negated value. -/
theorem jsParseFloat_neg_digits {l : List Char} (ha : l.all Char.isDigit = true)
    (hne : l ≠ []) : jsParseFloat ('-' :: l) = some (-(digitsVal l : Int)) := by
  unfold jsParseFloat
  dsimp only
  rw [List.dropWhile_cons_of_neg (by decide)]
  simp only [List.headD_cons, List.tail_cons, eq_self_iff_true, if_true, true_or]
  rw [takeWhile_eq_self_of_all ha]
  rw [if_neg (by simpa using hne)]
  simp

/-- `parseFloat` of the decimal rendering of any (safe) integer is that
integer. -/
theorem jsParseFloat_renderInt (n : Int) :
    jsParseFloat (renderInt n) = some n := by
  by_cases hn : n < 0
  · obtain ⟨ha, hne, hval⟩ := renderNat_spec n.natAbs
    unfold renderInt
    rw [if_pos hn, jsParseFloat_neg_digits ha hne, hval]
    simp only [Option.some.injEq]
    omega
  · obtain ⟨ha, hne, hval⟩ := renderNat_spec n.toNat
    unfold renderInt
    rw [if_neg hn, jsParseFloat_digits ha hne, hval]
    simp only [Option.some.injEq]
    omega

/-- A non-numericish string parses to `NaN`. -/
theorem jsParseFloat_none_of_not_numericish {s : List Char}
    (h : numericish s = false) : jsParseFloat s = none := by
  have key : ∀ (r2 : List Char), (r2.headD ' ').isDigit = false →
      (r2.takeWhile Char.isDigit).isEmpty = true := by
    intro r2 h2
    cases r2 with
    | nil => rfl
    | cons c t =>
      simp only [List.headD_cons] at h2
      simp [List.takeWhile_cons, h2]
  unfold numericish at h
  unfold jsParseFloat
  dsimp only at h ⊢
  simp only [Bool.or_eq_false_iff, Bool.and_eq_false_iff] at h
  rw [if_pos (key _ h.1.1)]

/-! ## Round-trip development: list and map utilities -/

theorem isEmpty_false_of_ne_nil {α : Type} {l : List α} (h : l ≠ []) :
    l.isEmpty = false := by
  cases l with
  | nil => exact absurd rfl h
  | cons a t => rfl

theorem takeWhile_all_append {α : Type} {p : α → Bool} :
    ∀ {xs : List α} {y : α} {ys : List α}, (∀ c ∈ xs, p c = true) →
      p y = false → (xs ++ y :: ys).takeWhile p = xs := by
  intro xs
  induction xs with
  | nil => intro y ys _ hy; simp [List.takeWhile_cons, hy]
  | cons c t ih =>
    intro y ys hall hy
    have hc : p c = true := hall c (List.mem_cons_self c t)
    simp only [List.cons_append, List.takeWhile_cons, hc]
    rw [ih (fun d hd => hall d (List.mem_cons_of_mem c hd)) hy]
    simp

theorem dropWhile_all_append {α : Type} {p : α → Bool} :
    ∀ {xs : List α} {y : α} {ys : List α}, (∀ c ∈ xs, p c = true) →
      p y = false → (xs ++ y :: ys).dropWhile p = y :: ys := by
  intro xs
  induction xs with
  | nil => intro y ys _ hy; simp [List.dropWhile_cons, hy]
  | cons c t ih =>
    intro y ys hall hy
    have hc : p c = true := hall c (List.mem_cons_self c t)
    simp only [List.cons_append, List.dropWhile_cons, hc]
    exact ih (fun d hd => hall d (List.mem_cons_of_mem c hd)) hy

/-! ## Round-trip development: splitting and joining -/

theorem jsSplit2_cons_cons (a b c d : Char) (rest : List Char) :
    jsSplit2 a b (c :: d :: rest) =
      if c = a ∧ d = b then [] :: jsSplit2 a b rest
      else match jsSplit2 a b (d :: rest) with
        | [] => [[c]]
        | p :: ps => (c :: p) :: ps := rfl

theorem jsSplit2_no_sep {a b : Char} :
    ∀ {l : List Char}, (∀ c ∈ l, c ≠ a) → jsSplit2 a b l = [l] := by
  intro l
  induction l with
  | nil => intro _; rfl
  | cons c t ih =>
    intro h
    cases t with
    | nil => rfl
    | cons d t2 =>
      have hc : c ≠ a := h c (List.mem_cons_self _ _)
      rw [jsSplit2_cons_cons, if_neg (fun hh => hc hh.1),
        ih (fun e he => h e (List.mem_cons_of_mem c he))]

theorem jsSplit2_append_sep {a b : Char} {rest : List Char} :
    ∀ {x : List Char}, (∀ c ∈ x, c ≠ a) →
      jsSplit2 a b (x ++ a :: b :: rest) = x :: jsSplit2 a b rest := by
  intro x
  induction x with
  | nil =>
    intro _
    simp only [List.nil_append]
    rw [jsSplit2_cons_cons, if_pos ⟨rfl, rfl⟩]
  | cons c t ih =>
    intro h
    have hc : c ≠ a := h c (List.mem_cons_self _ _)
    have ht := ih (fun e he => h e (List.mem_cons_of_mem c he))
    cases t with
    | nil =>
      simp only [List.nil_append] at ht
      simp only [List.cons_append, List.nil_append]
      rw [jsSplit2_cons_cons, if_neg (fun hh => hc hh.1), ht]
    | cons e t2 =>
      simp only [List.cons_append] at ht ⊢
      rw [jsSplit2_cons_cons, if_neg (fun hh => hc hh.1), ht]

theorem jsSplit2_joinSep {a b : Char} :
    ∀ {pieces : List (List Char)}, pieces ≠ [] →
      (∀ x ∈ pieces, ∀ c ∈ x, c ≠ a) →
      jsSplit2 a b (joinSep [a, b] pieces) = pieces := by
  intro pieces
  induction pieces with
  | nil => intro h _; exact absurd rfl h
  | cons x ps ih =>
    intro _ hall
    cases ps with
    | nil =>
      show jsSplit2 a b (joinSep [a, b] [x]) = [x]
      rw [show joinSep [a, b] [x] = x from rfl]
      exact jsSplit2_no_sep (hall x (List.mem_cons_self _ _))
    | cons y rest =>
      show jsSplit2 a b (x ++ [a, b] ++ joinSep [a, b] (y :: rest)) = x :: y :: rest
      have hx := hall x (List.mem_cons_self _ _)
      have h2 : jsSplit2 a b (joinSep [a, b] (y :: rest)) = y :: rest :=
        ih (by simp) (fun z hz => hall z (List.mem_cons_of_mem x hz))
      rw [List.append_assoc]
      have hs : ([a, b] : List Char) ++ joinSep [a, b] (y :: rest) =
          a :: b :: joinSep [a, b] (y :: rest) := rfl
      rw [hs, jsSplit2_append_sep hx, h2]

theorem joinSep_ne_nil {sep : List Char} :
    ∀ {pieces : List (List Char)}, pieces ≠ [] → (∀ x ∈ pieces, x ≠ []) →
      joinSep sep pieces ≠ [] := by
  intro pieces
  induction pieces with
  | nil => intro h _; exact absurd rfl h
  | cons x ps _ =>
    intro _ hall
    cases ps with
    | nil => exact hall x (List.mem_cons_self _ _)
    | cons y rest =>
      show x ++ sep ++ joinSep sep (y :: rest) ≠ []
      have hx := hall x (List.mem_cons_self _ _)
      simp [hx]

theorem joinSep_mem {sep : List Char} :
    ∀ {pieces : List (List Char)} {c : Char}, c ∈ joinSep sep pieces →
      c ∈ sep ∨ ∃ x ∈ pieces, c ∈ x := by
  intro pieces
  induction pieces with
  | nil => intro c h; exact absurd h (List.not_mem_nil _)
  | cons x ps ih =>
    intro c h
    cases ps with
    | nil => exact Or.inr ⟨x, List.mem_cons_self _ _, h⟩
    | cons y rest =>
      have : c ∈ x ++ sep ++ joinSep sep (y :: rest) := h
      rcases List.mem_append.mp this with h1 | h2
      · rcases List.mem_append.mp h1 with hx | hs
        · exact Or.inr ⟨x, List.mem_cons_self _ _, hx⟩
        · exact Or.inl hs
      · rcases ih h2 with hs | ⟨z, hz, hc⟩
        · exact Or.inl hs
        · exact Or.inr ⟨z, List.mem_cons_of_mem x hz, hc⟩

theorem foldl_jset_append {κ α : Type} [DecidableEq κ] :
    ∀ {l : List (κ × α)} (acc : List (κ × α)),
      (∀ p ∈ l, p.1 ∉ acc.map Prod.fst) → (l.map Prod.fst).Nodup →
      l.foldl (fun acc p => jset acc p.1 p.2) acc = acc ++ l := by
  intro l
  induction l with
  | nil => intro acc _ _; simp
  | cons p rest ih =>
    intro acc hfresh hnd
    simp only [List.map_cons, List.nodup_cons] at hnd
    simp only [List.foldl_cons]
    rw [jset_absent p.2 (jget_eq_none_of_not_mem (hfresh p (List.mem_cons_self _ _)))]
    rw [ih (acc ++ [p]) ?_ hnd.2]
    · simp
    · intro q hq
      simp only [List.map_append, List.mem_append, List.map_cons, List.map_nil,
        List.mem_singleton]
      push_neg
      refine ⟨hfresh q (List.mem_cons_of_mem p hq), ?_⟩
      intro hqp
      exact hnd.1 (hqp ▸ List.mem_map.mpr ⟨q, hq, rfl⟩)

theorem jsFromEntries_nodup {l : List (String × JsVal)}
    (h : (l.map Prod.fst).Nodup) : jsFromEntries l = l := by
  unfold jsFromEntries
  rw [foldl_jset_append [] (by simp) h]
  simp

/-! ## Round-trip development: characters of rendered properties -/

theorem goodKeyChar_spec {c : Char} (h : goodKeyChar c = true) :
    c ≠ ':' ∧ c ≠ ',' ∧ c ≠ braceR ∧ markerChar c = false ∧ c ≠ '\n' := by
  simp only [goodKeyChar, decide_eq_true_eq] at h
  push_neg at h
  exact ⟨h.1, h.2.1, h.2.2.1, by simpa using h.2.2.2.1, h.2.2.2.2⟩

theorem goodValChar_spec {c : Char} (h : goodValChar c = true) :
    c ≠ ':' ∧ c ≠ ',' ∧ c ≠ braceR ∧ markerChar c = false ∧ c ≠ '\n' := by
  simp only [goodValChar, decide_eq_true_eq] at h
  push_neg at h
  exact ⟨h.1, h.2.1, h.2.2.1, by simpa using h.2.2.2.1, h.2.2.2.2⟩

theorem renderInt_chars {n : Int} :
    ∀ c ∈ renderInt n, c = '-' ∨ c.isDigit = true := by
  intro c hc
  unfold renderInt at hc
  by_cases hn : n < 0
  · rw [if_pos hn] at hc
    rcases List.mem_cons.mp hc with rfl | hmem
    · exact Or.inl rfl
    · exact Or.inr (List.all_eq_true.mp (renderNat_spec n.natAbs).1 c hmem)
  · rw [if_neg hn] at hc
    exact Or.inr (List.all_eq_true.mp (renderNat_spec n.toNat).1 c hc)

theorem renderVal_chars {v : JsVal} (h : goodVal v) :
    ∀ c ∈ renderVal v, c ≠ ':' ∧ c ≠ ',' ∧ c ≠ braceR ∧ markerChar c = false := by
  intro c hc
  cases v with
  | num n =>
    rcases renderInt_chars c hc with rfl | hd
    · exact ⟨by decide, by decide, by decide, by decide⟩
    · obtain hf := digit_char_facts hd
      exact ⟨hf.2.1, hf.1, hf.2.2.1, hf.2.2.2.1⟩
  | str s =>
    obtain hs := goodValChar_spec (List.all_eq_true.mp h.1 c hc)
    exact ⟨hs.1, hs.2.1, hs.2.2.1, hs.2.2.2.1⟩
  | undef => exact h.elim

theorem renderProp_chars {p : String × JsVal} (h : goodProp p) :
    ∀ c ∈ renderProp p, c ≠ ',' ∧ c ≠ braceR ∧ markerChar c = false := by
  intro c hc
  unfold renderProp at hc
  rcases List.mem_append.mp hc with hk | hr
  · obtain hs := goodKeyChar_spec (List.all_eq_true.mp h.1 c hk)
    exact ⟨hs.2.1, hs.2.2.1, hs.2.2.2.1⟩
  · rcases List.mem_cons.mp hr with rfl | hr2
    · exact ⟨by decide, by decide, by decide⟩
    rcases List.mem_cons.mp hr2 with rfl | hv
    · exact ⟨by decide, by decide, by decide⟩
    obtain hs := renderVal_chars h.2.2.2.2 c hv
    exact ⟨hs.2.1, hs.2.2.1, hs.2.2.2⟩

theorem filter_keys_eq_self {props : List (String × JsVal)}
    (h : ∀ p ∈ props, goodProp p) :
    (props.filter fun p => p.1 ≠ "id" && p.1 ≠ "type" && p.1 ≠ "name") = props := by
  rw [List.filter_eq_self]
  intro p hp
  obtain ⟨_, h1, h2, h3, _⟩ := h p hp
  simp [h1, h2, h3]

theorem renderProps_chars {props : List (String × JsVal)}
    (h : ∀ p ∈ props, goodProp p) :
    ∀ c ∈ renderProps props, c ≠ braceR ∧ markerChar c = false := by
  intro c hc
  unfold renderProps at hc
  rw [filter_keys_eq_self h] at hc
  rcases joinSep_mem hc with hs | ⟨x, hx, hcx⟩
  · rcases List.mem_cons.mp hs with rfl | hs2
    · exact ⟨by decide, by decide⟩
    rcases List.mem_cons.mp hs2 with rfl | hs3
    · exact ⟨by decide, by decide⟩
    exact absurd hs3 (List.not_mem_nil _)
  · obtain ⟨p, hp, rfl⟩ := List.mem_map.mp hx
    obtain hr := renderProp_chars (h p hp) c hcx
    exact ⟨hr.2.1, hr.2.2⟩

theorem renderProp_ne_nil {p : String × JsVal} : renderProp p ≠ [] := by
  simp [renderProp]

theorem renderProps_ne_nil {props : List (String × JsVal)} (hne : props ≠ [])
    (h : ∀ p ∈ props, goodProp p) : renderProps props ≠ [] := by
  unfold renderProps
  rw [filter_keys_eq_self h]
  refine joinSep_ne_nil (by simpa using hne) ?_
  intro x hx
  obtain ⟨p, _, rfl⟩ := List.mem_map.mp hx
  exact renderProp_ne_nil

/-! ## Round-trip development: one property round-trips -/

theorem parseProp_renderProp {p : String × JsVal} (h : goodProp p) :
    parseProp (renderProp p) = p := by
  obtain ⟨hkey, h1, h2, h3, hval⟩ := h
  have hkey' : ∀ c ∈ p.1.data, c ≠ ':' := fun c hc =>
    (goodKeyChar_spec (List.all_eq_true.mp hkey c hc)).1
  have hval' : ∀ c ∈ renderVal p.2, c ≠ ':' := fun c hc =>
    (renderVal_chars hval c hc).1
  unfold parseProp renderProp
  dsimp only
  rw [jsSplit2_append_sep hkey', jsSplit2_no_sep hval']
  simp only [List.headD_cons, List.drop_succ_cons, List.drop_zero]
  cases hvv : p.2 with
  | num n =>
    rw [hvv] at hval
    have : renderVal (JsVal.num n) = renderInt n := rfl
    rw [this, jsParseFloat_renderInt]
    dsimp only
    rw [if_neg hval.1]
    exact Prod.ext rfl hvv.symm
  | str s =>
    rw [hvv] at hval
    have : renderVal (JsVal.str s) = s.data := rfl
    rw [this, jsParseFloat_none_of_not_numericish hval.2]
    dsimp only
    exact Prod.ext rfl hvv.symm
  | undef =>
    rw [hvv] at hval
    exact hval.elim

theorem props_roundtrip {props : List (String × JsVal)} (hne : props ≠ [])
    (hg : ∀ p ∈ props, goodProp p) (hnd : (props.map Prod.fst).Nodup) :
    jsFromEntries ((jsSplit2 ',' ' ' (renderProps props)).map parseProp) = props := by
  unfold renderProps
  rw [filter_keys_eq_self hg]
  rw [jsSplit2_joinSep (by simpa using hne) ?hcomma]
  case hcomma =>
    intro x hx c hc
    obtain ⟨p, hp, rfl⟩ := List.mem_map.mp hx
    exact (renderProp_chars (hg p hp) c hc).1
  rw [List.map_map]
  have hmap : props.map (parseProp ∘ renderProp) = props := by
    have h1 : props.map (parseProp ∘ renderProp) = props.map id :=
      List.map_congr_left (fun p hp => parseProp_renderProp (hg p hp))
    rw [h1, List.map_id]
  rw [hmap]
  exact jsFromEntries_nodup hnd

/-! ## Round-trip development: trimming, indent markers, the line regex -/

theorem trimChars_spec {c d : Char} {m : List Char}
    (hc : c.isWhitespace = false) (hd : d.isWhitespace = false) :
    trimChars (c :: (m ++ [d])) = c :: (m ++ [d]) := by
  unfold trimChars
  rw [List.dropWhile_cons_of_neg (by simp [hc])]
  rw [show (c :: (m ++ [d])).reverse = d :: (m.reverse ++ [c]) by
    simp [List.reverse_cons, List.reverse_append]]
  rw [List.dropWhile_cons_of_neg (by simp [hd])]
  simp [List.reverse_cons, List.reverse_append]

theorem vbarPairs_marker_count :
    ∀ m : Nat,
      (((List.replicate m ([vbar, ' '] : List Char)).flatten).filter markerChar).length = m := by
  intro m
  induction m with
  | zero => rfl
  | succ j ih =>
    rw [List.replicate_succ, List.flatten_cons, List.filter_append,
      List.length_append, ih]
    rw [show (List.filter markerChar [vbar, ' ']).length = 1 from by decide]
    omega

theorem indent_marker_count (k : Nat) :
    ((indentChars k).filter markerChar).length = k := by
  cases k with
  | zero => rfl
  | succ m =>
    unfold indentChars
    rw [if_neg (Nat.succ_ne_zero m)]
    rw [List.filter_append, List.length_append, Nat.add_sub_cancel,
      vbarPairs_marker_count]
    rw [show (List.filter markerChar [rbranch, ' ']).length = 1 from by decide]

theorem indentChars_mem : ∀ {k : Nat} {c : Char}, c ∈ indentChars k →
    c = vbar ∨ c = ' ' ∨ c = rbranch := by
  intro k c hc
  unfold indentChars at hc
  by_cases hk : k = 0
  · rw [if_pos hk] at hc; exact absurd hc (List.not_mem_nil _)
  · rw [if_neg hk] at hc
    rcases List.mem_append.mp hc with h1 | h2
    · obtain ⟨l, hl, hcl⟩ := List.mem_flatten.mp h1
      obtain rfl := List.eq_of_mem_replicate hl
      rcases List.mem_cons.mp hcl with rfl | h3
      · exact Or.inl rfl
      rcases List.mem_cons.mp h3 with rfl | h4
      · exact Or.inr (Or.inl rfl)
      exact absurd h4 (List.not_mem_nil _)
    · rcases List.mem_cons.mp h2 with rfl | h3
      · exact Or.inr (Or.inr rfl)
      rcases List.mem_cons.mp h3 with rfl | h4
      · exact Or.inr (Or.inl rfl)
      exact absurd h4 (List.not_mem_nil _)

theorem indentChars_nonword {k : Nat} : ∀ c ∈ indentChars k, wordChar c = false := by
  intro c hc
  rcases indentChars_mem hc with rfl | rfl | rfl <;> decide

theorem matchAt_nonword {c : Char} (h : wordChar c = false) (rest : List Char) :
    matchAt (c :: rest) = none := by
  unfold matchAt
  simp [List.takeWhile_cons, h]

theorem findMatch_append (pre l : List Char)
    (h : ∀ c ∈ pre, wordChar c = false) : findMatch (pre ++ l) = findMatch l := by
  induction pre with
  | nil => rfl
  | cons c t ih =>
    simp only [List.cons_append]
    have e : findMatch (c :: (t ++ l)) =
        match matchAt (c :: (t ++ l)) with
        | some r => some r
        | none => findMatch (t ++ l) := rfl
    rw [e, matchAt_nonword (h c (List.mem_cons_self _ _)) _]
    exact ih (fun d hd => h d (List.mem_cons_of_mem c hd))

theorem findMatch_of_matchAt {l : List Char}
    {r : List Char × List Char × List Char × List Char}
    (h : matchAt l = some r) : findMatch l = some r := by
  cases l with
  | nil =>
    rw [show matchAt ([] : List Char) = none from rfl] at h
    exact absurd h (by simp)
  | cons c t =>
    have e : findMatch (c :: t) =
        match matchAt (c :: t) with
        | some r => some r
        | none => findMatch t := rfl
    rw [e, h]

theorem matchAt_good (w1 w2 nm ps : List Char)
    (hw1 : w1 ≠ []) (hw1a : ∀ c ∈ w1, wordChar c = true)
    (hw2 : w2 ≠ []) (hw2a : ∀ c ∈ w2, wordChar c = true)
    (hnm : ∀ c ∈ nm, decide (c ≠ ')') = true)
    (hps : ps ≠ []) (hpsa : ∀ c ∈ ps, decide (c ≠ braceR) = true) :
    matchAt (w1 ++ '-' :: (w2 ++ ' ' :: '(' ::
        (nm ++ ')' :: ' ' :: braceL :: (ps ++ [braceR])))) =
      some (w1, w2, nm, ps) := by
  unfold matchAt
  simp only [takeWhile_all_append hw1a (show wordChar '-' = false from by decide),
    dropWhile_all_append hw1a (show wordChar '-' = false from by decide),
    takeWhile_all_append hw2a (show wordChar ' ' = false from by decide),
    dropWhile_all_append hw2a (show wordChar ' ' = false from by decide),
    takeWhile_all_append hnm (show decide (')' ≠ ')') = false from by decide),
    dropWhile_all_append hnm (show decide (')' ≠ ')') = false from by decide),
    takeWhile_all_append hpsa (show decide (braceR ≠ braceR) = false from by decide),
    dropWhile_all_append hpsa (show decide (braceR ≠ braceR) = false from by decide),
    isEmpty_false_of_ne_nil hw1, isEmpty_false_of_ne_nil hw2,
    isEmpty_false_of_ne_nil hps, Bool.false_eq_true, if_false,
    eq_self_iff_true, if_true]

/-! ## Round-trip development: the rendered line -/

theorem renderLine_indent (o : Obj) (k : Nat) :
    renderLine o k = indentChars k ++ renderLine o 0 := by
  unfold renderLine
  rw [show indentChars 0 = [] from rfl, List.nil_append]
  simp [List.append_assoc]

theorem renderLine_zero (o : Obj) :
    renderLine o 0 = o.type.data ++ '-' :: (o.id.data ++ ' ' :: '(' ::
      (o.name.data ++ ')' :: ' ' :: braceL :: (renderProps o.props ++ [braceR]))) := by
  unfold renderLine
  rw [show indentChars 0 = [] from rfl, List.nil_append]
  simp [List.cons_append, List.append_assoc]

theorem renderLine_zero_no_marker {o : Obj} (h : GoodObj o) :
    ∀ c ∈ renderLine o 0, markerChar c = false := by
  intro c hc
  rw [renderLine_zero] at hc
  obtain ⟨hid, hty, hnm, hpne, hpg, hpnd⟩ := h
  rcases List.mem_append.mp hc with h1 | h2
  · exact word_not_marker (List.all_eq_true.mp hty.2 c h1)
  rcases List.mem_cons.mp h2 with rfl | h3
  · decide
  rcases List.mem_append.mp h3 with h4 | h5
  · exact word_not_marker (List.all_eq_true.mp hid.2 c h4)
  rcases List.mem_cons.mp h5 with rfl | h6
  · decide
  rcases List.mem_cons.mp h6 with rfl | h7
  · decide
  rcases List.mem_append.mp h7 with h8 | h9
  · have hx := List.all_eq_true.mp hnm c h8
    simp only [decide_eq_true_eq] at hx
    push_neg at hx
    simpa using hx.2.1
  rcases List.mem_cons.mp h9 with rfl | h10
  · decide
  rcases List.mem_cons.mp h10 with rfl | h11
  · decide
  rcases List.mem_cons.mp h11 with rfl | h12
  · decide
  rcases List.mem_append.mp h12 with h13 | h14
  · exact (renderProps_chars hpg c h13).2
  rcases List.mem_cons.mp h14 with rfl | h15
  · decide
  exact absurd h15 (List.not_mem_nil _)

theorem renderLine_marker_count {o : Obj} (h : GoodObj o) (k : Nat) :
    ((renderLine o k).filter markerChar).length = k := by
  rw [renderLine_indent, List.filter_append, List.length_append, indent_marker_count]
  have hnil : (renderLine o 0).filter markerChar = [] := by
    rw [List.filter_eq_nil_iff]
    intro a ha
    simp [renderLine_zero_no_marker h a ha]
  rw [hnil]
  rfl

theorem renderLine_decomp (o : Obj) (k : Nat) (hty : o.type.data ≠ [])
    (htyw : o.type.data.all wordChar = true) :
    ∃ c M, renderLine o k = c :: (M ++ [braceR]) ∧ c.isWhitespace = false := by
  rcases k with _ | m
  · cases hc : o.type.data with
    | nil => exact absurd hc hty
    | cons c ts =>
      refine ⟨c, ts ++ '-' :: (o.id.data ++ ' ' :: '(' ::
        (o.name.data ++ ')' :: ' ' :: braceL :: renderProps o.props)), ?_, ?_⟩
      · rw [renderLine_zero, hc]
        simp [List.cons_append, List.append_assoc]
      · refine word_not_ws (List.all_eq_true.mp htyw c ?_)
        rw [hc]
        exact List.mem_cons_self _ _
  · cases m with
    | zero =>
      refine ⟨rbranch, ' ' :: (o.type.data ++ '-' :: (o.id.data ++ ' ' :: '(' ::
        (o.name.data ++ ')' :: ' ' :: braceL :: renderProps o.props))), ?_, by decide⟩
      rw [renderLine_indent]
      rw [show indentChars 1 = [rbranch, ' '] from by decide]
      rw [renderLine_zero]
      simp [List.cons_append, List.append_assoc]
    | succ j =>
      show ∃ c M, renderLine o (j + 2) = c :: (M ++ [braceR]) ∧ c.isWhitespace = false
      refine ⟨vbar, ' ' :: ((List.replicate j ([vbar, ' '] : List Char)).flatten ++
        rbranch :: ' ' :: (o.type.data ++ '-' :: (o.id.data ++ ' ' :: '(' ::
          (o.name.data ++ ')' :: ' ' :: braceL :: renderProps o.props)))), ?_, by decide⟩
      rw [renderLine_indent]
      have hi : indentChars (j + 2) = [vbar, ' '] ++
          ((List.replicate j ([vbar, ' '] : List Char)).flatten ++ [rbranch, ' ']) := by
        unfold indentChars
        rw [if_neg (by omega)]
        rw [show j + 2 - 1 = j + 1 from by omega, List.replicate_succ,
          List.flatten_cons, List.append_assoc]
      rw [hi, renderLine_zero]
      simp [List.cons_append, List.append_assoc]

theorem trim_renderLine {o : Obj} (h : GoodObj o) (k : Nat) :
    trimChars (renderLine o k) = renderLine o k := by
  obtain ⟨c, M, heq, hcw⟩ := renderLine_decomp o k h.2.1.1 h.2.1.2
  rw [heq, trimChars_spec hcw (by decide)]

theorem findMatch_renderLine {o : Obj} (h : GoodObj o) (k : Nat) :
    findMatch (renderLine o k) =
      some (o.type.data, o.id.data, o.name.data, renderProps o.props) := by
  rw [renderLine_indent, findMatch_append _ _ indentChars_nonword]
  refine findMatch_of_matchAt ?_
  rw [renderLine_zero]
  obtain ⟨hid, hty, hnm, hpne, hpg, _⟩ := h
  refine matchAt_good o.type.data o.id.data o.name.data (renderProps o.props)
    hty.1 (fun c hc => List.all_eq_true.mp hty.2 c hc)
    hid.1 (fun c hc => List.all_eq_true.mp hid.2 c hc)
    ?_ (renderProps_ne_nil hpne hpg) ?_
  · intro c hc
    have hx := List.all_eq_true.mp hnm c hc
    simp only [decide_eq_true_eq] at hx
    push_neg at hx
    exact decide_eq_true hx.1
  · intro c hc
    exact decide_eq_true (renderProps_chars hpg c hc).1

/-! ## Round-trip development: `loadLine` on a rendered line -/

theorem loadLine_render_root (st : SState) (stk : List (Option Obj)) (o : Obj)
    (h : GoodObj o) :
    loadLine (st, stk) (renderLine o 0) =
      ({ st with
          root := some o,
          id_object := jset st.id_object o.id o,
          id_contentIds := jset st.id_contentIds o.id [],
          id_dirty := jset st.id_dirty o.id o }, psSet stk 0 o) := by
  unfold loadLine
  dsimp only
  rw [trim_renderLine h 0, renderLine_marker_count h 0, findMatch_renderLine h 0]
  dsimp only
  rw [props_roundtrip h.2.2.2.1 h.2.2.2.2.1 h.2.2.2.2.2]
  rw [if_neg (lt_irrefl 0)]

theorem loadLine_render_child (st : SState) (stk : List (Option Obj)) (o p : Obj)
    (j : Nat) (h : GoodObj o) (hp : psGet stk j = some p) :
    loadLine (st, stk) (renderLine o (j + 1)) =
      ({ st with
          id_parentId := jset st.id_parentId o.id p.id,
          id_object := jset st.id_object o.id o,
          id_contentIds := jset (jpush st.id_contentIds p.id o.id) o.id [],
          id_dirty := jset st.id_dirty o.id o }, psSet stk (j + 1) o) := by
  unfold loadLine
  dsimp only
  rw [trim_renderLine h (j + 1), renderLine_marker_count h (j + 1),
    findMatch_renderLine h (j + 1)]
  dsimp only
  rw [props_roundtrip h.2.2.2.1 h.2.2.2.2.1 h.2.2.2.2.2]
  rw [if_pos (Nat.succ_pos j), Nat.add_sub_cancel, hp]

/-! ## Round-trip development: tree entry lists and their keys -/

theorem jpushAll_keys {κ α : Type} [DecidableEq κ] {m : List (κ × List α)}
    {k : κ} {xs : List α} : (jpushAll m k xs).map Prod.fst = m.map Prod.fst := by
  induction m with
  | nil => rfl
  | cons p rest ih =>
    obtain ⟨k', v⟩ := p
    by_cases hk : k' = k <;> simp [jpushAll, hk, ih]

theorem treeIds_node (o : Obj) (cs : OForest) :
    treeIds (.node o cs) = o.id :: forestIds cs := by
  simp [treeIds, treeObjs, forestIds]

theorem forestIds_cons (t : OTree) (ts : OForest) :
    forestIds (.cons t ts) = treeIds t ++ forestIds ts := by
  simp [forestIds, forestObjs, treeIds]

theorem forestIds_nil : forestIds .nil = [] := rfl

theorem objEntries_node (o : Obj) (cs : OForest) :
    objEntries (.node o cs) = (o.id, o) :: forestObjEntries cs := by
  simp [objEntries, treeObjs, forestObjEntries]

theorem forestObjEntries_cons (t : OTree) (ts : OForest) :
    forestObjEntries (.cons t ts) = objEntries t ++ forestObjEntries ts := by
  simp [forestObjEntries, forestObjs, objEntries]

theorem forestObjEntries_nil : forestObjEntries .nil = [] := rfl

theorem objEntries_keys (t : OTree) :
    (objEntries t).map Prod.fst = treeIds t := by
  simp [objEntries, treeIds, List.map_map]

theorem forestObjEntries_keys (ts : OForest) :
    (forestObjEntries ts).map Prod.fst = forestIds ts := by
  simp [forestObjEntries, forestIds, List.map_map]

theorem rootId_mem_treeIds (t : OTree) : t.rootId ∈ treeIds t := by
  cases t with
  | node o cs =>
    rw [treeIds_node]
    exact List.mem_cons_self _ _

theorem renderTree_node (o : Obj) (cs : OForest) (k : Nat) :
    renderTree (.node o cs) k = renderLine o k :: renderForest cs (k + 1) := by
  rw [renderTree]

theorem renderForest_cons (t : OTree) (ts : OForest) (k : Nat) :
    renderForest (.cons t ts) k = renderTree t k ++ renderForest ts k := by
  rw [renderForest]

theorem renderForest_nil (k : Nat) : renderForest .nil k = [] := by
  rw [renderForest]

theorem parentEntriesT_node (o : Obj) (cs : OForest) :
    parentEntriesT (.node o cs) = parentEntriesF o.id cs := by
  rw [parentEntriesT]

theorem parentEntriesF_cons (pid : String) (t : OTree) (ts : OForest) :
    parentEntriesF pid (.cons t ts) =
      (t.rootId, pid) :: (parentEntriesT t ++ parentEntriesF pid ts) := by
  rw [parentEntriesF]
  exact List.cons_append _ _ _

theorem parentEntriesF_nil (pid : String) : parentEntriesF pid .nil = [] := by
  rw [parentEntriesF]

theorem contentEntriesT_node (o : Obj) (cs : OForest) :
    contentEntriesT (.node o cs) =
      (o.id, forestRootIds cs) :: contentEntriesF cs := by
  rw [contentEntriesT]

theorem contentEntriesF_cons (t : OTree) (ts : OForest) :
    contentEntriesF (.cons t ts) = contentEntriesT t ++ contentEntriesF ts := by
  rw [contentEntriesF]

theorem contentEntriesF_nil : contentEntriesF .nil = [] := by
  rw [contentEntriesF]

theorem forestRootIds_cons (t : OTree) (ts : OForest) :
    forestRootIds (.cons t ts) = t.rootId :: forestRootIds ts := by
  rw [forestRootIds]

theorem forestRootIds_nil : forestRootIds .nil = [] := by
  rw [forestRootIds]

mutual
theorem contentEntriesT_keys : ∀ t : OTree,
    (contentEntriesT t).map Prod.fst = treeIds t
  | .node o cs => by
    rw [contentEntriesT, List.map_cons, contentEntriesF_keys cs, treeIds_node]

theorem contentEntriesF_keys : ∀ ts : OForest,
    (contentEntriesF ts).map Prod.fst = forestIds ts
  | .nil => rfl
  | .cons t ts => by
    rw [contentEntriesF, List.map_append, contentEntriesT_keys t,
      contentEntriesF_keys ts, forestIds_cons]
end

mutual
theorem parentEntriesT_keys_subset : ∀ t : OTree,
    ∀ x ∈ (parentEntriesT t).map Prod.fst, x ∈ treeIds t
  | .node o cs => by
    intro x hx
    rw [parentEntriesT] at hx
    rw [treeIds_node]
    exact List.mem_cons_of_mem _ (parentEntriesF_keys_subset o.id cs x hx)

theorem parentEntriesF_keys_subset : ∀ (pid : String) (ts : OForest),
    ∀ x ∈ (parentEntriesF pid ts).map Prod.fst, x ∈ forestIds ts
  | pid, .nil => by intro x hx; exact absurd hx (List.not_mem_nil _)
  | pid, .cons t ts => by
    intro x hx
    rw [parentEntriesF_cons, List.map_cons, List.map_append] at hx
    rw [forestIds_cons]
    rcases List.mem_cons.mp hx with rfl | hx2
    · exact List.mem_append_left _ (rootId_mem_treeIds t)
    rcases List.mem_append.mp hx2 with h1 | h2
    · exact List.mem_append_left _ (parentEntriesT_keys_subset t x h1)
    · exact List.mem_append_right _ (parentEntriesF_keys_subset pid ts x h2)
end

theorem treeObjs_node (o : Obj) (cs : OForest) :
    treeObjs (.node o cs) = o :: forestObjs cs := by
  rw [treeObjs]

theorem forestObjs_cons (t : OTree) (ts : OForest) :
    forestObjs (.cons t ts) = treeObjs t ++ forestObjs ts := by
  rw [forestObjs]

theorem forestObjs_nil : forestObjs .nil = [] := by
  rw [forestObjs]

/-! ## Round-trip development: the `loadData` fold rebuilds the tree -/

mutual
theorem loadTree_spec : ∀ (t : OTree) (st : SState) (stk : List (Option Obj))
    (k : Nat) (p : Obj) (L : List String),
    (∀ o ∈ treeObjs t, GoodObj o) → (treeIds t).Nodup →
    (∀ id ∈ treeIds t, id ∉ st.id_object.map Prod.fst ∧
      id ∉ st.id_parentId.map Prod.fst ∧ id ∉ st.id_contentIds.map Prod.fst ∧
      id ∉ st.id_dirty.map Prod.fst) →
    psGet stk k = some p → jget st.id_contentIds p.id = some L →
    ∃ stk', (renderTree t (k + 1)).foldl loadLine (st, stk) =
      ({ st with
          id_object := st.id_object ++ objEntries t,
          id_parentId := st.id_parentId ++ (t.rootId, p.id) :: parentEntriesT t,
          id_contentIds := jpush st.id_contentIds p.id t.rootId ++ contentEntriesT t,
          id_dirty := st.id_dirty ++ objEntries t }, stk') ∧
      ∀ i ≤ k, psGet stk' i = psGet stk i
  | .node o cs => by
    intro st stk k p L hg hnd hfresh hp hL
    have hgo : GoodObj o := hg o (by rw [treeObjs_node]; exact List.mem_cons_self _ _)
    have hgcs : ∀ o' ∈ forestObjs cs, GoodObj o' := fun o' ho' =>
      hg o' (by rw [treeObjs_node]; exact List.mem_cons_of_mem _ ho')
    rw [treeIds_node] at hnd
    obtain ⟨hnd1, hnd2⟩ := List.nodup_cons.mp hnd
    have hfo := hfresh o.id (by rw [treeIds_node]; exact List.mem_cons_self _ _)
    have hff : ∀ id ∈ forestIds cs, id ∉ st.id_object.map Prod.fst ∧
        id ∉ st.id_parentId.map Prod.fst ∧ id ∉ st.id_contentIds.map Prod.fst ∧
        id ∉ st.id_dirty.map Prod.fst := fun id hid =>
      hfresh id (by rw [treeIds_node]; exact List.mem_cons_of_mem _ hid)
    rw [renderTree_node, List.foldl_cons, loadLine_render_child st stk o p k hgo hp]
    have hpushk : (jpush st.id_contentIds p.id o.id).map Prod.fst =
        st.id_contentIds.map Prod.fst := jpushAll_keys
    have hobj : jset st.id_object o.id o = st.id_object ++ [(o.id, o)] :=
      jset_absent o (jget_eq_none_of_not_mem hfo.1)
    have hpar : jset st.id_parentId o.id p.id = st.id_parentId ++ [(o.id, p.id)] :=
      jset_absent _ (jget_eq_none_of_not_mem hfo.2.1)
    have hnone : jget (jpush st.id_contentIds p.id o.id) o.id = none :=
      jget_eq_none_of_not_mem (by rw [hpushk]; exact hfo.2.2.1)
    have hcon : jset (jpush st.id_contentIds p.id o.id) o.id [] =
        jpush st.id_contentIds p.id o.id ++ [(o.id, [])] := jset_absent _ hnone
    have hdir : jset st.id_dirty o.id o = st.id_dirty ++ [(o.id, o)] :=
      jset_absent _ (jget_eq_none_of_not_mem hfo.2.2.2)
    rw [hobj, hpar, hcon, hdir]
    have hne_root : ∀ id ∈ forestIds cs, id ≠ o.id := by
      intro id hid heq
      exact hnd1 (heq ▸ hid)
    obtain ⟨stk', hfold, hpres⟩ :=
      loadForest_spec cs
        ({ st with
            id_parentId := st.id_parentId ++ [(o.id, p.id)],
            id_object := st.id_object ++ [(o.id, o)],
            id_contentIds := jpush st.id_contentIds p.id o.id ++ [(o.id, [])],
            id_dirty := st.id_dirty ++ [(o.id, o)] })
        (psSet stk (k + 1) o) (k + 1) o []
        hgcs hnd2
        (by
          intro id hid
          obtain ⟨f1, f2, f3, f4⟩ := hff id hid
          have hne := hne_root id hid
          refine ⟨?_, ?_, ?_, ?_⟩ <;>
            · dsimp only
              rw [List.map_append]
              simp only [List.mem_append, List.map_cons, List.map_nil,
                List.mem_singleton]
              push_neg
              first
              | exact ⟨f1, hne⟩
              | exact ⟨f2, hne⟩
              | (rw [hpushk]; exact ⟨f3, hne⟩)
              | exact ⟨f4, hne⟩)
        (psGet_psSet_self stk (k + 1) o)
        (by
          dsimp only
          rw [jget_append_of_none hnone]
          simp [jget])
    refine ⟨stk', ?_, ?_⟩
    · rw [hfold]
      refine Prod.ext ?_ rfl
      dsimp only
      simp only [SState.mk.injEq, and_true, true_and]
      refine ⟨?_, ?_, ?_, ?_⟩
      · rw [objEntries_node, List.append_assoc, List.singleton_append]
      · rw [show (OTree.node o cs).rootId = o.id from rfl, parentEntriesT_node,
          List.append_assoc, List.singleton_append]
      · rw [jpushAll_append_right hnone,
          show jpushAll [(o.id, ([] : List String))] o.id (forestRootIds cs) =
            [(o.id, forestRootIds cs)] from by simp [jpushAll],
          show (OTree.node o cs).rootId = o.id from rfl, contentEntriesT_node,
          List.append_assoc, List.singleton_append]
      · rw [objEntries_node, List.append_assoc, List.singleton_append]
    · intro i hi
      rw [hpres i (le_trans hi (Nat.le_succ k)),
        psGet_psSet_lt stk (k + 1) i o (Nat.lt_succ_of_le hi)]

theorem loadForest_spec : ∀ (cs : OForest) (st : SState) (stk : List (Option Obj))
    (k : Nat) (p : Obj) (L : List String),
    (∀ o ∈ forestObjs cs, GoodObj o) → (forestIds cs).Nodup →
    (∀ id ∈ forestIds cs, id ∉ st.id_object.map Prod.fst ∧
      id ∉ st.id_parentId.map Prod.fst ∧ id ∉ st.id_contentIds.map Prod.fst ∧
      id ∉ st.id_dirty.map Prod.fst) →
    psGet stk k = some p → jget st.id_contentIds p.id = some L →
    ∃ stk', (renderForest cs (k + 1)).foldl loadLine (st, stk) =
      ({ st with
          id_object := st.id_object ++ forestObjEntries cs,
          id_parentId := st.id_parentId ++ parentEntriesF p.id cs,
          id_contentIds :=
            jpushAll st.id_contentIds p.id (forestRootIds cs) ++ contentEntriesF cs,
          id_dirty := st.id_dirty ++ forestObjEntries cs }, stk') ∧
      ∀ i ≤ k, psGet stk' i = psGet stk i
  | .nil => by
    intro st stk k p L hg hnd hfresh hp hL
    refine ⟨stk, ?_, fun i _ => rfl⟩
    rw [renderForest_nil]
    simp only [List.foldl_nil]
    rw [forestObjEntries_nil, contentEntriesF_nil, parentEntriesF_nil,
      forestRootIds_nil, jpushAll_nil]
    simp only [List.append_nil]
  | .cons t ts => by
    intro st stk k p L hg hnd hfresh hp hL
    have hgt : ∀ o' ∈ treeObjs t, GoodObj o' := fun o' h' =>
      hg o' (by rw [forestObjs_cons]; exact List.mem_append_left _ h')
    have hgts : ∀ o' ∈ forestObjs ts, GoodObj o' := fun o' h' =>
      hg o' (by rw [forestObjs_cons]; exact List.mem_append_right _ h')
    rw [forestIds_cons] at hnd
    obtain ⟨hnd1, hnd2, hdisj⟩ := List.nodup_append.mp hnd
    have hfresht : ∀ id ∈ treeIds t, id ∉ st.id_object.map Prod.fst ∧
        id ∉ st.id_parentId.map Prod.fst ∧ id ∉ st.id_contentIds.map Prod.fst ∧
        id ∉ st.id_dirty.map Prod.fst := fun id hid =>
      hfresh id (by rw [forestIds_cons]; exact List.mem_append_left _ hid)
    rw [renderForest_cons, List.foldl_append]
    obtain ⟨stkA, hfoldA, hpresA⟩ := loadTree_spec t st stk k p L hgt hnd1 hfresht hp hL
    rw [hfoldA]
    have hsomeA : jget (jpush st.id_contentIds p.id t.rootId) p.id =
        some (L ++ [t.rootId]) := by
      have h1 : jget (jpushAll st.id_contentIds p.id [t.rootId]) p.id =
          (jget st.id_contentIds p.id).map (· ++ [t.rootId]) := jget_jpushAll_self
      rw [hL] at h1
      exact h1
    have hpushk : (jpush st.id_contentIds p.id t.rootId).map Prod.fst =
        st.id_contentIds.map Prod.fst := jpushAll_keys
    obtain ⟨stk', hfoldB, hpresB⟩ :=
      loadForest_spec ts
        ({ st with
            id_object := st.id_object ++ objEntries t,
            id_parentId := st.id_parentId ++ (t.rootId, p.id) :: parentEntriesT t,
            id_contentIds := jpush st.id_contentIds p.id t.rootId ++ contentEntriesT t,
            id_dirty := st.id_dirty ++ objEntries t })
        stkA k p (L ++ [t.rootId])
        hgts hnd2
        (by
          intro id hid
          obtain ⟨f1, f2, f3, f4⟩ := hfresh id
            (by rw [forestIds_cons]; exact List.mem_append_right _ hid)
          have hidnt : id ∉ treeIds t := fun hmem => hdisj hmem hid
          refine ⟨?_, ?_, ?_, ?_⟩
          · dsimp only
            rw [List.map_append, objEntries_keys]
            simp only [List.mem_append]
            push_neg
            exact ⟨f1, hidnt⟩
          · dsimp only
            rw [List.map_append, List.map_cons]
            simp only [List.mem_append, List.mem_cons]
            push_neg
            exact ⟨f2, fun h' => hidnt (h' ▸ rootId_mem_treeIds t),
              fun h' => hidnt (parentEntriesT_keys_subset t id h')⟩
          · dsimp only
            rw [List.map_append, hpushk, contentEntriesT_keys]
            simp only [List.mem_append]
            push_neg
            exact ⟨f3, hidnt⟩
          · dsimp only
            rw [List.map_append, objEntries_keys]
            simp only [List.mem_append]
            push_neg
            exact ⟨f4, hidnt⟩)
        (by rw [hpresA k (Nat.le_refl k)]; exact hp)
        (by
          dsimp only
          exact jget_append_of_some hsomeA)
    refine ⟨stk', ?_, ?_⟩
    · rw [hfoldB]
      refine Prod.ext ?_ rfl
      dsimp only
      simp only [SState.mk.injEq, and_true, true_and]
      refine ⟨?_, ?_, ?_, ?_⟩
      · rw [forestObjEntries_cons, List.append_assoc]
      · rw [parentEntriesF_cons, List.append_assoc, List.cons_append]
      · rw [jpushAll_append_left (by rw [hsomeA]; rfl),
          show jpushAll (jpush st.id_contentIds p.id t.rootId) p.id
              (forestRootIds ts) =
            jpushAll st.id_contentIds p.id (t.rootId :: forestRootIds ts) from by
            rw [show jpush st.id_contentIds p.id t.rootId =
                jpushAll st.id_contentIds p.id [t.rootId] from rfl,
              jpushAll_jpushAll, List.singleton_append],
          forestRootIds_cons, contentEntriesF_cons, List.append_assoc]
      · rw [forestObjEntries_cons, List.append_assoc]
    · intro i hi
      rw [hpresB i hi, hpresA i hi]
end

/-! ## Round-trip development: `loadData` of the rendered tree -/

theorem loadData_renderTree : ∀ (t : OTree), TreeWF t →
    loadData (renderTree t 0) initState = storeOfTree t := by
  intro t h
  obtain ⟨hg, hnd⟩ := h
  cases t with
  | node o cs =>
    have hgo : GoodObj o := hg o (by rw [treeObjs_node]; exact List.mem_cons_self _ _)
    unfold loadData
    rw [renderTree_node, List.foldl_cons]
    have hstep : loadLine (initState, ([] : List (Option Obj))) (renderLine o 0) =
        (⟨[(o.id, o)], [], [(o.id, [])], [], [(o.id, o)], some o, [], [], [], []⟩,
          [some o]) := by
      rw [loadLine_render_root initState [] o hgo]
      rfl
    rw [hstep]
    rw [treeIds_node] at hnd
    obtain ⟨hnd1, hnd2⟩ := List.nodup_cons.mp hnd
    obtain ⟨stk', hfold, -⟩ := loadForest_spec cs
      ⟨[(o.id, o)], [], [(o.id, [])], [], [(o.id, o)], some o, [], [], [], []⟩
      [some o] 0 o []
      (fun o' ho' => hg o' (by rw [treeObjs_node]; exact List.mem_cons_of_mem _ ho'))
      hnd2
      (by
        intro id hid
        have hne : id ≠ o.id := fun he => hnd1 (he ▸ hid)
        refine ⟨?_, ?_, ?_, ?_⟩ <;> simp [hne])
      (by rfl)
      (by simp [jget])
    rw [hfold]
    dsimp only
    simp only [storeOfTree, SState.mk.injEq, and_true, true_and]
    refine ⟨?_, ?_, ?_, ?_, ?_⟩
    · simp [objEntries_node]
    · simp [parentEntriesT_node]
    · simp [jpushAll, contentEntriesT_node]
    · simp [objEntries_node]
    · rfl

/-! ## Round-trip development: `saveData` renders the tree -/

theorem treeDepth_node (o : Obj) (cs : OForest) :
    treeDepth (.node o cs) = forestDepth cs + 1 := by
  rw [treeDepth]

theorem forestDepth_cons (t : OTree) (ts : OForest) :
    forestDepth (.cons t ts) = max (treeDepth t) (forestDepth ts) := by
  rw [forestDepth]

theorem forestDepth_nil : forestDepth .nil = 0 := by
  rw [forestDepth]

mutual
theorem treeDepth_le_card : ∀ t : OTree, treeDepth t ≤ (treeObjs t).length
  | .node o cs => by
    rw [treeDepth_node, treeObjs_node, List.length_cons]
    exact Nat.succ_le_succ (forestDepth_le_card cs)

theorem forestDepth_le_card : ∀ ts : OForest, forestDepth ts ≤ (forestObjs ts).length
  | .nil => by rw [forestDepth_nil]; exact Nat.zero_le _
  | .cons t ts => by
    rw [forestDepth_cons, forestObjs_cons, List.length_append]
    exact max_le (le_trans (treeDepth_le_card t) (Nat.le_add_right _ _))
      (le_trans (forestDepth_le_card ts) (Nat.le_add_left _ _))
end

theorem TreeInStore_node (st : SState) (o : Obj) (cs : OForest) :
    TreeInStore st (.node o cs) =
      (jget st.id_object o.id = some o ∧
        jget st.id_contentIds o.id = some (forestRootIds cs) ∧
        ForestInStore st cs) := by
  rw [TreeInStore]

theorem ForestInStore_cons (st : SState) (t : OTree) (ts : OForest) :
    ForestInStore st (.cons t ts) = (TreeInStore st t ∧ ForestInStore st ts) := by
  rw [ForestInStore]

theorem ForestInStore_nil (st : SState) : ForestInStore st .nil = True := by
  rw [ForestInStore]

mutual
theorem treeInStore_of_lookup : ∀ (st : SState) (t : OTree),
    (∀ p ∈ objEntries t, jget st.id_object p.1 = some p.2) →
    (∀ p ∈ contentEntriesT t, jget st.id_contentIds p.1 = some p.2) →
    TreeInStore st t
  | st, .node o cs => by
    intro ho hc
    rw [TreeInStore_node]
    refine ⟨?_, ?_, ?_⟩
    · exact ho (o.id, o) (by rw [objEntries_node]; exact List.mem_cons_self _ _)
    · exact hc (o.id, forestRootIds cs)
        (by rw [contentEntriesT_node]; exact List.mem_cons_self _ _)
    · refine forestInStore_of_lookup st cs ?_ ?_
      · intro p hp
        exact ho p (by rw [objEntries_node]; exact List.mem_cons_of_mem _ hp)
      · intro p hp
        exact hc p (by rw [contentEntriesT_node]; exact List.mem_cons_of_mem _ hp)

theorem forestInStore_of_lookup : ∀ (st : SState) (ts : OForest),
    (∀ p ∈ forestObjEntries ts, jget st.id_object p.1 = some p.2) →
    (∀ p ∈ contentEntriesF ts, jget st.id_contentIds p.1 = some p.2) →
    ForestInStore st ts
  | st, .nil => by
    intro _ _
    rw [ForestInStore_nil]
    trivial
  | st, .cons t ts => by
    intro ho hc
    rw [ForestInStore_cons]
    refine ⟨?_, ?_⟩
    · refine treeInStore_of_lookup st t ?_ ?_
      · intro p hp
        exact ho p (by rw [forestObjEntries_cons]; exact List.mem_append_left _ hp)
      · intro p hp
        exact hc p (by rw [contentEntriesF_cons]; exact List.mem_append_left _ hp)
    · refine forestInStore_of_lookup st ts ?_ ?_
      · intro p hp
        exact ho p (by rw [forestObjEntries_cons]; exact List.mem_append_right _ hp)
      · intro p hp
        exact hc p (by rw [contentEntriesF_cons]; exact List.mem_append_right _ hp)
end

theorem treeInStore_storeOfTree {t : OTree} (hnd : (treeIds t).Nodup) :
    TreeInStore (storeOfTree t) t := by
  refine treeInStore_of_lookup _ t ?_ ?_
  · intro p hp
    exact jget_of_mem_nodup
      (by rw [show (storeOfTree t).id_object = objEntries t from rfl,
        objEntries_keys]; exact hnd) hp
  · intro p hp
    exact jget_of_mem_nodup
      (by rw [show (storeOfTree t).id_contentIds = contentEntriesT t from rfl,
        contentEntriesT_keys]; exact hnd) hp

theorem treeInStore_addObjects {t : OTree} (hnd : (treeIds t).Nodup)
    (js : List (String × Obj)) : TreeInStore (addObjects (storeOfTree t) js) t := by
  refine treeInStore_of_lookup _ t ?_ ?_
  · intro p hp
    exact jget_append_of_some
      (jget_of_mem_nodup
        (by rw [show (storeOfTree t).id_object = objEntries t from rfl,
          objEntries_keys]; exact hnd) hp)
  · intro p hp
    exact jget_of_mem_nodup
      (by rw [show (addObjects (storeOfTree t) js).id_contentIds =
        contentEntriesT t from rfl, contentEntriesT_keys]; exact hnd) hp

theorem writeForest_spec (st : SState) (fuel : Nat)
    (htree : ∀ (t : OTree) (k : Nat), TreeInStore st t → treeDepth t ≤ fuel →
      writeObject st fuel t.rootId k = renderTree t k) :
    ∀ (cs : OForest) (k : Nat), ForestInStore st cs → forestDepth cs ≤ fuel →
      ((forestRootIds cs).flatMap fun cid => writeObject st fuel cid k) =
        renderForest cs k
  | .nil, k => by
    intro _ _
    rw [forestRootIds_nil, renderForest_nil]
    rfl
  | .cons t ts, k => by
    intro hcs hfd
    rw [ForestInStore_cons] at hcs
    rw [forestDepth_cons] at hfd
    rw [forestRootIds_cons, renderForest_cons, List.flatMap_cons]
    rw [htree t k hcs.1 (le_trans (le_max_left _ _) hfd)]
    rw [writeForest_spec st fuel htree ts k hcs.2 (le_trans (le_max_right _ _) hfd)]

theorem writeObject_spec (st : SState) :
    ∀ (fuel : Nat) (t : OTree) (k : Nat), TreeInStore st t → treeDepth t ≤ fuel →
      writeObject st fuel t.rootId k = renderTree t k := by
  intro fuel
  induction fuel with
  | zero =>
    intro t k _ hd
    cases t with
    | node o cs => rw [treeDepth_node] at hd; omega
  | succ f ih =>
    intro t k hin hd
    cases t with
    | node o cs =>
      rw [TreeInStore_node] at hin
      obtain ⟨ho, hc, hcs⟩ := hin
      rw [treeDepth_node] at hd
      have hfd : forestDepth cs ≤ f := by omega
      unfold writeObject
      rw [show (OTree.node o cs).rootId = o.id from rfl, ho, hc]
      dsimp only
      rw [renderTree_node]
      congr 1
      exact writeForest_spec st f ih cs (k + 1) hcs hfd

theorem saveLines_eq_renderTree {st : SState} {t : OTree}
    (hroot : st.root = some t.obj) (hin : TreeInStore st t)
    (hfuel : treeDepth t ≤ st.id_object.length + 1) :
    saveLines st = renderTree t 0 := by
  unfold saveLines
  rw [hroot]
  dsimp only
  rw [show t.obj.id = t.rootId from rfl]
  exact writeObject_spec st (st.id_object.length + 1) t 0 hin hfuel

theorem treeDepth_le_store (t : OTree) :
    treeDepth t ≤ (storeOfTree t).id_object.length + 1 := by
  have h := treeDepth_le_card t
  have he : (storeOfTree t).id_object.length = (treeObjs t).length := by
    rw [show (storeOfTree t).id_object = objEntries t from rfl]
    unfold objEntries
    rw [List.length_map]
  omega

/-! ## C1 — save/load round-trip -/

/-- C1 (corrected): for a well-formed tree — every object has at least one
extra round-trippable property, word ids and types, a clean name, distinct
keys, and values that survive `parseFloat(value) || value` — saving the
store of the tree and loading the file back rebuilds exactly the same
store: ids, types, names, properties, parent links, child lists and
root. -/
theorem c1_roundtrip_wf (t : OTree) (h : TreeWF t) :
    loadData (saveLines (storeOfTree t)) initState = storeOfTree t := by
  rw [saveLines_eq_renderTree (show (storeOfTree t).root = some t.obj from rfl)
    (treeInStore_storeOfTree h.2) (treeDepth_le_store t)]
  exact loadData_renderTree t h

/-- Witness: the two-object example tree is well-formed and round-trips. -/
theorem c1_roundtrip_wf_witness :
    TreeWF exTree ∧
      loadData (saveLines (storeOfTree exTree)) initState = storeOfTree exTree :=
  ⟨by decide, c1_roundtrip_wf exTree (by decide)⟩

/-! ## C10 — saveData writes exactly the reachable objects, pre-order -/

/-- C10 (confirmed): `saveData` writes exactly the objects reachable from
the root through `id_contentIds`, one line per object, in pre-order
depth-first order; entries of `id_object` that are reachable from no root
are omitted, and with no root set nothing is written. -/
theorem c10_save_preorder_reachable (t : OTree) (js : List (String × Obj))
    (st0 : SState) (h : (treeIds t).Nodup) (h0 : st0.root = none) :
    saveLines (addObjects (storeOfTree t) js) = renderTree t 0 ∧
      saveLines st0 = [] := by
  constructor
  · refine saveLines_eq_renderTree
      (show (addObjects (storeOfTree t) js).root = some t.obj from rfl)
      (treeInStore_addObjects h js) ?_
    have h1 := treeDepth_le_store t
    have h2 : (addObjects (storeOfTree t) js).id_object.length =
        (storeOfTree t).id_object.length + js.length := by
      rw [show (addObjects (storeOfTree t) js).id_object =
        (storeOfTree t).id_object ++ js from rfl, List.length_append]
    omega
  · unfold saveLines
    rw [h0]

/-- Witness: the example tree with a junk entry appended saves to exactly
its pre-order rendering, and the empty store saves nothing. -/
theorem c10_save_preorder_reachable_witness :
    (treeIds exTree).Nodup ∧ initState.root = none ∧
      (saveLines (addObjects (storeOfTree exTree) exJunk) = renderTree exTree 0 ∧
        saveLines initState = []) :=
  ⟨by decide, rfl,
    c10_save_preorder_reachable exTree exJunk initState (by decide) rfl⟩

/-! ## C8 — per-sub-message parse isolation -/

/-- A sub-message that fails to decode leaves the `server.js` frame loop
state and events untouched (the throw becomes a rejected promise that is
only logged). -/
theorem svProcessPiece_none (decode : String → Option SvDec) (ws : Nat)
    (acc : SState × List SvEv) (piece : String) (h : decode piece = none) :
    svProcessPiece decode ws acc piece = acc := by
  obtain ⟨st, evs⟩ := acc
  simp [svProcessPiece, h]

/-- A sub-message that fails to decode in the `socketManager` loop sends
the invalid-format error reply and nothing else. -/
theorem smProcessPiece_none (openWs : Nat → Bool) (supply : Nat → String)
    (now : Int) (decode : String → Option SMDec) (ws : Nat) (st : SMState)
    (piece : String) (h : decode piece = none) :
    smProcessPiece openWs supply now decode ws st piece =
      smSend st ws .errorInvalid := by
  simp [smProcessPiece, h]

/-- C8 counterexample: in the `server.js` path, a frame containing the
unparseable sub-message `"bad"` followed by `"good"` produces *exactly*
the same state and events as the frame without `"bad"` — the good
sub-message is still processed, but no error reply of any kind is
produced for the bad one, contradicting the claim that a parse failure
produces an error reply for that sub-message. -/
theorem c8_counterexample :
    svHandleFrame svDecodeEx 7 stInitEx "bad\ngood" =
      svHandleFrame svDecodeEx 7 stInitEx "good" ∧
    (svHandleFrame svDecodeEx 7 stInitEx "bad\ngood").2 =
      [SvEv.touched "c1", SvEv.emitted "init"] := by
  decide

/-- C8 (amended): sub-messages are decoded and dispatched independently
in both frame loops — a parse failure never prevents the remaining
sub-messages of the frame from being processed — but only the
`socketManager.js` loop answers the failing sub-message with an
`Invalid message format` error reply; the `server.js` loop produces no
reply at all for it (the failure is only logged). -/
theorem c8_parse_failure_isolated (decode : String → Option SvDec)
    (ws : Nat) (st : SState) (evs : List SvEv) (piece : String)
    (l1 l2 : List String) (openWs : Nat → Bool) (supply : Nat → String)
    (now : Int) (decodeM : String → Option SMDec) (mst : SMState)
    (hbad : decode piece = none) (hbadM : decodeM piece = none) :
    svProcessPiece decode ws (st, evs) piece = (st, evs) ∧
    svProcessPieces decode ws st (l1 ++ piece :: l2) =
      svProcessPieces decode ws st (l1 ++ l2) ∧
    smProcessPiece openWs supply now decodeM ws mst piece =
      smSend mst ws .errorInvalid ∧
    smProcessPieces openWs supply now decodeM ws mst (l1 ++ piece :: l2) =
      smProcessPieces openWs supply now decodeM ws
        (smSend (smProcessPieces openWs supply now decodeM ws mst l1) ws
          .errorInvalid) l2 := by
  refine ⟨svProcessPiece_none decode ws (st, evs) piece hbad, ?_, ?_, ?_⟩
  · unfold svProcessPieces
    rw [List.foldl_append, List.foldl_append, List.foldl_cons,
      svProcessPiece_none decode ws _ piece hbad]
  · exact smProcessPiece_none openWs supply now decodeM ws mst piece hbadM
  · unfold smProcessPieces
    rw [List.foldl_append, List.foldl_cons,
      smProcessPiece_none openWs supply now decodeM ws _ piece hbadM]

/-- Witness for the amended C8 theorem: concrete frames around the
unparseable sub-message `"bad"`. -/
theorem c8_parse_failure_isolated_witness :
    svDecodeEx "bad" = none ∧ smDecodeEx "bad" = none ∧
    svProcessPieces svDecodeEx 5 stInitEx (["good"] ++ "bad" :: ["good"]) =
      svProcessPieces svDecodeEx 5 stInitEx (["good"] ++ ["good"]) ∧
    smProcessPieces (fun _ => true) smSupplyEx 0 smDecodeEx 5 smStEx
        (["m"] ++ "bad" :: ["m"]) =
      smProcessPieces (fun _ => true) smSupplyEx 0 smDecodeEx 5
        (smSend (smProcessPieces (fun _ => true) smSupplyEx 0 smDecodeEx 5
          smStEx ["m"]) 5 .errorInvalid) ["m"] := by
  have h := c8_parse_failure_isolated svDecodeEx 5 stInitEx [] "bad"
    ["good"] ["good"] (fun _ => true) smSupplyEx 0 smDecodeEx smStEx
    (by decide) (by decide)
  have h2 := c8_parse_failure_isolated svDecodeEx 5 stInitEx [] "bad"
    ["m"] ["m"] (fun _ => true) smSupplyEx 0 smDecodeEx smStEx
    (by decide) (by decide)
  exact ⟨by decide, by decide, h.2.1, h2.2.2.2⟩

end Burns
